import Mathlib

/-!
Verification development for the differential codec in `compress.py` of the
shadow-did-plc-server repository.

The codec works on decoded DAG-CBOR structures.  We embed those structures as
the inductive type `Tree` below: Python `dict` (string-keyed, insertion order
significant) becomes `Tree.map` over an association list, Python `list`
becomes `Tree.seq`, and the leaf values (`str`, `bytes`, `int`, `bool`,
`None`, `cbor2.CBORTag`) become the remaining constructors.  The `float`
leaf variant of the data model is omitted from the embedding: no claim under
verification mentions doubles and their IEEE equality is outside a shallow
embedding.

External library calls of the source (`base64`, `multiformats.multibase`,
`cbor2.dumps`/`cbor2.loads`, `dag_cbor.encode`) are modelled by executable
Lean functions implementing the documented behaviour of those libraries on
the value shapes the codec passes to them; each model notes its boundaries
in its doc comment.  Everything that is code of `compress.py` itself is
translated statement by statement.
-/

namespace DidPlc

/-- Decoded DAG-CBOR value, as manipulated by `compress.py`.  `map` keeps the
Python dict's insertion order; `tagged` is `cbor2.CBORTag` (payload is a
`bytes` or `str` leaf in all uses the codec makes of it, but any tree is
allowed, as in Python). -/
inductive Tree where
| map : List (String × Tree) → Tree
| seq : List Tree → Tree
| str : String → Tree
| bytes : List Nat → Tree
| int : Int → Tree
| bool : Bool → Tree
| null : Tree
| tagged : Nat → Tree → Tree
deriving Repr, Inhabited

mutual

/-- Structural (Lean-level) equality test on trees, used to state theorems. -/
def Tree.beq : Tree → Tree → Bool
| .map a, .map b => beqEntries a b
| .seq a, .seq b => beqElems a b
| .str a, .str b => a == b
| .bytes a, .bytes b => a == b
| .int a, .int b => a == b
| .bool a, .bool b => a == b
| .null, .null => true
| .tagged t a, .tagged u b => t == u && Tree.beq a b
| _, _ => false

def beqEntries : List (String × Tree) → List (String × Tree) → Bool
| [], [] => true
| (k, v) :: r, (k2, v2) :: r2 => k == k2 && Tree.beq v v2 && beqEntries r r2
| _, _ => false

def beqElems : List Tree → List Tree → Bool
| [], [] => true
| a :: r, b :: r2 => Tree.beq a b && beqElems r r2
| _, _ => false

end

instance : BEq Tree := ⟨Tree.beq⟩

mutual

theorem Tree.beq_iff : ∀ a b : Tree, Tree.beq a b = true ↔ a = b
| .map a, .map b => by
    simp only [Tree.beq, beqEntries_iff a b, Tree.map.injEq]
| .map _, .seq _ | .map _, .str _ | .map _, .bytes _ | .map _, .int _
| .map _, .bool _ | .map _, .null | .map _, .tagged _ _ => by simp [Tree.beq]
| .seq a, .seq b => by
    simp only [Tree.beq, beqElems_iff a b, Tree.seq.injEq]
| .seq _, .map _ | .seq _, .str _ | .seq _, .bytes _ | .seq _, .int _
| .seq _, .bool _ | .seq _, .null | .seq _, .tagged _ _ => by simp [Tree.beq]
| .str a, .str b => by simp [Tree.beq]
| .str _, .map _ | .str _, .seq _ | .str _, .bytes _ | .str _, .int _
| .str _, .bool _ | .str _, .null | .str _, .tagged _ _ => by simp [Tree.beq]
| .bytes a, .bytes b => by simp [Tree.beq]
| .bytes _, .map _ | .bytes _, .seq _ | .bytes _, .str _ | .bytes _, .int _
| .bytes _, .bool _ | .bytes _, .null | .bytes _, .tagged _ _ => by simp [Tree.beq]
| .int a, .int b => by simp [Tree.beq]
| .int _, .map _ | .int _, .seq _ | .int _, .str _ | .int _, .bytes _
| .int _, .bool _ | .int _, .null | .int _, .tagged _ _ => by simp [Tree.beq]
| .bool a, .bool b => by simp [Tree.beq]
| .bool _, .map _ | .bool _, .seq _ | .bool _, .str _ | .bool _, .bytes _
| .bool _, .int _ | .bool _, .null | .bool _, .tagged _ _ => by simp [Tree.beq]
| .null, .null => by simp [Tree.beq]
| .null, .map _ | .null, .seq _ | .null, .str _ | .null, .bytes _
| .null, .int _ | .null, .bool _ | .null, .tagged _ _ => by simp [Tree.beq]
| .tagged t a, .tagged u b => by
    simp only [Tree.beq, Bool.and_eq_true, beq_iff_eq, Tree.beq_iff a b,
      Tree.tagged.injEq]
| .tagged _ _, .map _ | .tagged _ _, .seq _ | .tagged _ _, .str _
| .tagged _ _, .bytes _ | .tagged _ _, .int _ | .tagged _ _, .bool _
| .tagged _ _, .null => by simp [Tree.beq]

theorem beqEntries_iff : ∀ a b : List (String × Tree), beqEntries a b = true ↔ a = b
| [], [] => by simp [beqEntries]
| [], _ :: _ => by simp [beqEntries]
| _ :: _, [] => by simp [beqEntries]
| (k, v) :: r, (k2, v2) :: r2 => by
    simp only [beqEntries, Bool.and_eq_true, beq_iff_eq, Tree.beq_iff v v2,
      beqEntries_iff r r2, List.cons.injEq, Prod.mk.injEq, and_assoc]

theorem beqElems_iff : ∀ a b : List Tree, beqElems a b = true ↔ a = b
| [], [] => by simp [beqElems]
| [], _ :: _ => by simp [beqElems]
| _ :: _, [] => by simp [beqElems]
| a :: r, b :: r2 => by
    simp only [beqElems, Bool.and_eq_true, Tree.beq_iff a b, beqElems_iff r r2,
      List.cons.injEq]

end

instance : DecidableEq Tree := fun a b =>
  decidable_of_iff (Tree.beq a b = true) (Tree.beq_iff a b)

/-! ## Indexing helpers (`build_index`, `count_indices`) -/

mutual

/-- `count_indices(obj)` from the source: total flat indices consumed by an
object and its subtree (1 for the node; each map entry adds an entry-marker
slot and a key slot). -/
def count_indices : Tree → Nat
| .map kvs => 1 + countEntries kvs
| .seq xs => 1 + countElems xs
| _ => 1

def countEntries : List (String × Tree) → Nat
| [] => 0
| (_, v) :: r => 2 + count_indices v + countEntries r

def countElems : List Tree → Nat
| [] => 0
| x :: r => count_indices x + countElems r

end

mutual

/-- Total number of map entries anywhere in the tree (the administrative
slots `build_index` consumes but does not store). -/
def numEntries : Tree → Nat
| .map kvs => numEntriesOfList kvs
| .seq xs => numEntriesOfElems xs
| _ => 0

def numEntriesOfList : List (String × Tree) → Nat
| [] => 0
| (_, v) :: r => 1 + numEntries v + numEntriesOfList r

def numEntriesOfElems : List Tree → Nat
| [] => 0
| x :: r => numEntries x + numEntriesOfElems r

end

mutual

/-- The walk of `build_index(obj)`: starting from counter `c`, returns the
stored `{index: value}` entries in insertion order together with the final
counter.  The entry-marker slot of each map entry consumes an index without
storing anything (`_next()` whose result is discarded); the key-name slot
stores the key string (as a tree leaf). -/
def buildIndexFrom : Tree → Nat → List (Nat × Tree) × Nat
| t, c =>
  match t with
  | .map kvs =>
    let r := buildIndexEntries kvs (c + 1)
    ((c, .map kvs) :: r.1, r.2)
  | .seq xs =>
    let r := buildIndexElems xs (c + 1)
    ((c, .seq xs) :: r.1, r.2)
  | t => ([(c, t)], c + 1)

def buildIndexEntries : List (String × Tree) → Nat → List (Nat × Tree) × Nat
| [], c => ([], c)
| (k, v) :: r, c =>
  -- one bare index for the entry marker (stored nowhere), one for the key
  let rv := buildIndexFrom v (c + 2)
  let rr := buildIndexEntries r rv.2
  ((c + 1, .str k) :: rv.1 ++ rr.1, rr.2)

def buildIndexElems : List Tree → Nat → List (Nat × Tree) × Nat
| [], c => ([], c)
| x :: r, c =>
  let rx := buildIndexFrom x c
  let rr := buildIndexElems r rx.2
  (rx.1 ++ rr.1, rr.2)

end

/-- `build_index(obj)` from the source: flat index → stored entity, walked
from counter 0. -/
def build_index (t : Tree) : List (Nat × Tree) := (buildIndexFrom t 0).1

/-! ## Python value equality

`compute_diff` and `compute_lcs` compare decoded values with Python `==`:
dicts compare by key set and values (insertion order is ignored), lists
pointwise, `bool` and `int` compare numerically across types
(`True == 1`), and `cbor2.CBORTag` compares tag and payload. -/

/-- Python `d[k]` / `k in d` lookup on the insertion-ordered dict model. -/
def lookupStr : List (String × Tree) → String → Option Tree
| [], _ => none
| (k, v) :: r, x => if k = x then some v else lookupStr r x

/-- Numeric value of an `int` or `bool` leaf for Python's cross-type
numeric equality. -/
def pyNum : Tree → Int
| .int i => i
| .bool b => if b then 1 else 0
| _ => 0

mutual

/-- Python `==` on decoded values. -/
def pyEq : Tree → Tree → Bool
| .map a, .map b => a.length == b.length && pyEqEntries a b
| .seq a, .seq b => pyEqElems a b
| .str a, .str b => a == b
| .bytes a, .bytes b => a == b
| .int a, .int b => a == b
| .bool a, .bool b => a == b
| .int a, .bool b => a == pyNum (.bool b)
| .bool a, .int b => pyNum (.bool a) == b
| .null, .null => true
| .tagged t a, .tagged u b => t == u && pyEq a b
| _, _ => false

def pyEqEntries : List (String × Tree) → List (String × Tree) → Bool
| [], _ => true
| (k, v) :: r, b =>
  (match lookupStr b k with
   | some w => pyEq v w
   | none => false) && pyEqEntries r b

def pyEqElems : List Tree → List Tree → Bool
| [], [] => true
| x :: r, y :: s => pyEq x y && pyEqElems r s
| _, _ => false

end

/-! ## Canonical key order

The sort key used by the source is `lambda kv: (len(kv[0]), kv[0])`:
key length first, then code-point lexicographic. -/

/-- Nonstrict `(len(a), a) <= (len(b), b)` on key strings. -/
def pyKeyLe (a b : String) : Prop :=
  a.length < b.length ∨ (a.length = b.length ∧ a ≤ b)

instance : DecidableRel pyKeyLe := fun a b => by
  unfold pyKeyLe; infer_instance

instance : IsTotal String pyKeyLe := by
  constructor
  intro a b
  rcases Nat.lt_trichotomy a.length b.length with h | h | h
  · exact Or.inl (Or.inl h)
  · rcases le_total a b with h2 | h2
    · exact Or.inl (Or.inr ⟨h, h2⟩)
    · exact Or.inr (Or.inr ⟨h.symm, h2⟩)
  · exact Or.inr (Or.inl h)

instance : IsTrans String pyKeyLe := by
  constructor
  intro a b c hab hbc
  rcases hab with h1 | ⟨e1, l1⟩
  · rcases hbc with h2 | ⟨e2, _⟩
    · exact Or.inl (h1.trans h2)
    · exact Or.inl (e2 ▸ h1)
  · rcases hbc with h2 | ⟨e2, l2⟩
    · exact Or.inl (e1 ▸ h2)
    · exact Or.inr ⟨e1.trans e2, le_trans l1 l2⟩

/-- The same order lifted to dict entries (compare keys only). -/
def entryLe (p q : String × Tree) : Prop := pyKeyLe p.1 q.1

instance : DecidableRel entryLe := fun p q => by
  unfold entryLe; infer_instance

instance : IsTotal (String × Tree) entryLe :=
  ⟨fun p q => IsTotal.total (r := pyKeyLe) p.1 q.1⟩

instance : IsTrans (String × Tree) entryLe :=
  ⟨fun _ _ _ h h2 => IsTrans.trans (r := pyKeyLe) _ _ _ h h2⟩

/-- `sorted(obj.items(), key=lambda kv: (len(kv[0]), kv[0]))` from
`apply_diff` (a stable sort; key ties cannot arise for distinct dict keys). -/
def sortEntries (l : List (String × Tree)) : List (String × Tree) :=
  List.insertionSort entryLe l

/-- `sorted(added, key=lambda k: (len(k), k))` from `compute_diff`. -/
def sortStrs (l : List String) : List String :=
  List.insertionSort pyKeyLe l

/-- Strict `(len(a), a) < (len(b), b)` on key strings. -/
def pyKeyLtB (a b : String) : Bool :=
  a.length < b.length || (a.length == b.length && a < b)

/-- The strict key order as a relation. -/
def pyKeyLtRel (a b : String) : Prop := pyKeyLtB a b = true

/-- Adjacent strict canonical ordering of a key list. -/
def keysSortedB : List String → Bool
| [] => true
| [_] => true
| a :: b :: r => pyKeyLtB a b && keysSortedB (b :: r)

mutual

/-- CAN-1: every map in the tree lists its keys in strictly increasing
(length, lexicographic) order. -/
def isCanon : Tree → Bool
| .map kvs => keysSortedB (kvs.map Prod.fst) && entriesCanon kvs
| .seq xs => elemsCanon xs
| _ => true

def entriesCanon : List (String × Tree) → Bool
| [] => true
| (_, v) :: r => isCanon v && entriesCanon r

def elemsCanon : List Tree → Bool
| [] => true
| x :: r => isCanon x && elemsCanon r

end

/-! ## LCS (`compute_lcs`) -/

/-- The dynamic-programming table of `compute_lcs`: `lcsDP old new i j` is
`dp[i][j]`, the LCS length of the first `i` old and first `j` new elements
(stated as the defining recurrence of the table the source fills). -/
def lcsDP (old new : List Tree) : Nat → Nat → Nat
| 0, _ => 0
| _ + 1, 0 => 0
| i + 1, j + 1 =>
  if pyEq (old.getD i .null) (new.getD j .null) then lcsDP old new i j + 1
  else max (lcsDP old new i (j + 1)) (lcsDP old new (i + 1) j)
termination_by i j => (i, j)

/-- The backtracking loop of `compute_lcs`, producing matched pairs in
decreasing position order, with the source's tie-break
`dp[i-1][j] >= dp[i][j-1]` preferring the upper-row predecessor. -/
def lcsBack (old new : List Tree) : Nat → Nat → List (Nat × Nat)
| 0, _ => []
| _ + 1, 0 => []
| i + 1, j + 1 =>
  if pyEq (old.getD i .null) (new.getD j .null) then
    (i, j) :: lcsBack old new i j
  else if lcsDP old new i (j + 1) ≥ lcsDP old new (i + 1) j then
    lcsBack old new i (j + 1)
  else
    lcsBack old new (i + 1) j
termination_by i j => (i, j)

/-- `compute_lcs(old_list, new_list)`: matched `(old_pos, new_pos)` pairs in
ascending order. -/
def compute_lcs (old new : List Tree) : List (Nat × Nat) :=
  (lcsBack old new old.length new.length).reverse

/-! ## Structural diff (`compute_diff`) -/

/-- The four diff components returned by `compute_diff` and consumed by
`apply_diff`.  `updates` and the index-keyed lists keep dict insertion
order; indices are unique per component, so lookup order never matters. -/
structure Diff where
  updates : List (Nat × Tree)
  deletes : List Nat
  inserts : List (Nat × List Tree)
  prepends : List (Nat × List Tree)
deriving Repr, DecidableEq

/-- `d.setdefault(i, []).append(v)` on an index-keyed dict of lists. -/
def addAssoc (l : List (Nat × List Tree)) (i : Nat) (v : Tree) :
    List (Nat × List Tree) :=
  match l with
  | [] => [(i, [v])]
  | (j, vs) :: r => if j = i then (j, vs ++ [v]) :: r else (j, vs) :: addAssoc r i v

/-- The mutable accumulator threaded through `_diff`: shared counter plus
the four components being built. -/
structure DiffSt where
  counter : Nat
  updates : List (Nat × Tree)
  deletes : List Nat
  inserts : List (Nat × List Tree)
  prepends : List (Nat × List Tree)

/-- Exact-type comparison `type(old_obj) != type(new_obj)` (note that in
Python `bool` and `int` are distinct exact types). -/
def sameType : Tree → Tree → Bool
| .map _, .map _ => true
| .seq _, .seq _ => true
| .str _, .str _ => true
| .bytes _, .bytes _ => true
| .int _, .int _ => true
| .bool _, .bool _ => true
| .null, .null => true
| .tagged _ _, .tagged _ _ => true
| _, _ => false

/-- `next(np for op, np in lcs_pairs if op == i)`: the new position matched
to old position `i`, if `i` is matched. -/
def findMatch : List (Nat × Nat) → Nat → Option Nat
| [], _ => none
| (op, np) :: r, i => if op = i then some np else findMatch r i

/-- First matched new position strictly greater than `j` (the pairs are
scanned in the ascending order `sorted(new_matched)` iterates). -/
def nextMatched : List (Nat × Nat) → Nat → Option (Nat × Nat)
| [], _ => none
| (op, np) :: r, j => if np > j then some (op, np) else nextMatched r j

/-- The second loop of the two-sequences branch: classify each unmatched new
element as a prepend on the first following matched old element, or an
insert on the sequence container itself. -/
def classifyNew (pairs : List (Nat × Nat)) (oldElemIdx : List (Nat × Nat))
    (listIdx : Nat) : List Tree → Nat → DiffSt → DiffSt
| [], _, st => st
| x :: rest, j, st =>
  let st :=
    if pairs.any (fun p => p.2 = j) then st
    else
      match nextMatched pairs j with
      | some (op, _) =>
        let target := ((List.lookup op oldElemIdx).getD 0)
        { st with prepends := addAssoc st.prepends target x }
      | none => { st with inserts := addAssoc st.inserts listIdx x }
  classifyNew pairs oldElemIdx listIdx rest (j + 1) st

mutual

/-- `_diff(old_obj, new_obj)` from `compute_diff`, with the closure-captured
counter and components made explicit as `DiffSt`.  Note: the final
type-mismatch branch records the whole new subtree but advances the counter
only past the single index consumed on entry (the source has no `_advance`
there). -/
def diffTree (oldT newT : Tree) (st : DiffSt) : DiffSt :=
  let idx := st.counter
  let st1 : DiffSt := { st with counter := st.counter + 1 }
  match oldT, newT with
  | .map okvs, .map nkvs =>
    let added := (nkvs.map Prod.fst).filter (fun k => (lookupStr okvs k).isNone)
    let st2 := (sortStrs added).foldl (fun st k =>
      match lookupStr nkvs k with
      | some v => { st with inserts := addAssoc st.inserts idx (.seq [.str k, v]) }
      | none => st) st1
    diffEntries okvs nkvs st2
  | .seq oxs, .seq nxs =>
    let pairs := compute_lcs oxs nxs
    let r := diffOldElems oxs nxs pairs 0 st1 []
    classifyNew pairs r.2 idx nxs 0 r.1
  | o, n =>
    if sameType o n then
      if pyEq o n then st1 else { st1 with updates := st1.updates ++ [(idx, n)] }
    else { st1 with updates := st1.updates ++ [(idx, n)] }

/-- The old-keys loop of the two-maps branch. -/
def diffEntries (okvs nkvs : List (String × Tree)) (st : DiffSt) : DiffSt :=
  match okvs with
  | [] => st
  | (k, v) :: r =>
    let entryIdx := st.counter
    let st1 : DiffSt := { st with counter := st.counter + 2 }
    let st2 :=
      match lookupStr nkvs k with
      | none => { st1 with deletes := st1.deletes ++ [entryIdx],
                           counter := st1.counter + count_indices v }
      | some w => diffTree v w st1
    diffEntries r nkvs st2

/-- The old-elements loop of the two-sequences branch; also returns the
`old_elem_indices` mapping (old position → flat index). -/
def diffOldElems (oxs nxs : List Tree) (pairs : List (Nat × Nat)) (i : Nat)
    (st : DiffSt) (acc : List (Nat × Nat)) : DiffSt × List (Nat × Nat) :=
  match oxs with
  | [] => (st, acc)
  | item :: rest =>
    let acc1 := acc ++ [(i, st.counter)]
    let st1 :=
      match findMatch pairs i with
      | some np => diffTree item (nxs.getD np .null) st
      | none => { st with deletes := st.deletes ++ [st.counter],
                          counter := st.counter + count_indices item }
    diffOldElems rest nxs pairs (i + 1) st1 acc1

end

/-- `compute_diff(old, new)` from the source. -/
def compute_diff (old new : Tree) : Diff :=
  let st := diffTree old new ⟨0, [], [], [], []⟩
  ⟨st.updates, st.deletes, st.inserts, st.prepends⟩

/-! ## Patch application (`apply_diff`) -/

/-- Python `obj[key] = val` on the dict model: overwrite in place if the key
exists, else append. -/
def dictSet (kvs : List (String × Tree)) (k : String) (v : Tree) :
    List (String × Tree) :=
  match kvs with
  | [] => [(k, v)]
  | (k2, w) :: r => if k2 = k then (k2, v) :: r else (k2, w) :: dictSet r k v

/-- The `key, val` destructuring of one map-insert value: it must be a
two-element sequence `[key_string, subtree]`.  Other shapes fail — Python
would raise on most of them, and the remaining exotic iterables (e.g.
two-character strings) would build non-string-keyed dicts outside this
embedding. -/
def asPair : Tree → Option (String × Tree)
| .seq [.str k, v] => some (k, v)
| _ => none

/-- `for key, val in inserts[idx]: obj[key] = val` on a map container. -/
def insertPairs (kvs : List (String × Tree)) : List Tree →
    Option (List (String × Tree))
| [] => some kvs
| x :: rest => do
  let (k, v) ← asPair x
  insertPairs (dictSet kvs k v) rest

mutual

/-- `_walk(obj, setter)` of `apply_diff`, made pure: returns the processed
node (the mutations `_walk` performs on `obj` itself) and the final counter.
An `updates` entry for this node's own index is applied by the CALLER
(`walkEntries` / `walkElems` below), mirroring the `setter` callback; the
root call has a no-op setter, so `apply_diff` discards a root update while
keeping the interior mutations — exactly as the source does. -/
def walkTree (dd : Diff) : Tree → Nat → Option (Tree × Nat)
| .map kvs, c => do
  let (es, ds, c2) ← walkEntries dd kvs (c + 1)
  let afterDel := es.filter (fun p => !(ds.contains p.1))
  let withIns ←
    match List.lookup c dd.inserts with
    | none => some afterDel
    | some ins => insertPairs afterDel ins
  let final :=
    if !ds.isEmpty || (List.lookup c dd.inserts).isSome
    then sortEntries withIns else withIns
  some (.map final, c2)
| .seq xs, c => do
  let (es, c2) ← walkElems dd xs (c + 1)
  let tail := (List.lookup c dd.inserts).getD []
  some (.seq (es ++ tail), c2)
| t, c => some (t, c + 1)

/-- The entries loop of the dict branch: consumes the entry-marker and key
indices, deletes or recurses, and collects `keys_to_delete`. -/
def walkEntries (dd : Diff) : List (String × Tree) → Nat →
    Option (List (String × Tree) × List String × Nat)
| [], c => some ([], [], c)
| (k, v) :: rest, c =>
  if dd.deletes.contains c then do
    let (es, ds, c2) ← walkEntries dd rest (c + 2 + count_indices v)
    some ((k, v) :: es, k :: ds, c2)
  else do
    let (pv, c1) ← walkTree dd v (c + 2)
    let slot := (List.lookup (c + 2) dd.updates).getD pv
    let (es, ds, c2) ← walkEntries dd rest c1
    some ((k, slot) :: es, ds, c2)

/-- The elements loop of the list branch: records prepends for surviving
elements, skips deleted ones, and rebuilds the element list. -/
def walkElems (dd : Diff) : List Tree → Nat → Option (List Tree × Nat)
| [], c => some ([], c)
| x :: rest, c =>
  if dd.deletes.contains c then do
    let (es, c2) ← walkElems dd rest (c + count_indices x)
    some (es, c2)
  else do
    let (px, c1) ← walkTree dd x c
    let slot := (List.lookup c dd.updates).getD px
    let preps := (List.lookup c dd.prepends).getD []
    let (es, c2) ← walkElems dd rest c1
    some (preps ++ slot :: es, c2)

end

/-- `apply_diff(obj, updates, deletes, inserts, prepends)` from the source.
The walk starts at counter 0 with a no-op root setter and the (deep copy of
the) walked object is returned. -/
def apply_diff (obj : Tree) (dd : Diff) : Option Tree := do
  let (p, _) ← walkTree dd obj 0
  some p

/-! ## Base encodings

Models of the library calls `base64.urlsafe_b64decode` /
`base64.urlsafe_b64encode` and `multiformats.multibase.decode` /
`multiformats.multibase.encode`, on the inputs this codec hands them. -/

/-- Value of a character under `base64.urlsafe_b64decode` (the translation
step rewrites minus and underscore, so both the URL-safe and the standard
alphabet are accepted). -/
def b64CharVal (c : Char) : Option Nat :=
  if 'A' ≤ c ∧ c ≤ 'Z' then some (c.toNat - 65)
  else if 'a' ≤ c ∧ c ≤ 'z' then some (c.toNat - 97 + 26)
  else if '0' ≤ c ∧ c ≤ '9' then some (c.toNat - 48 + 52)
  else if c = '-' ∨ c = '+' then some 62
  else if c = '_' ∨ c = '/' then some 63
  else none

/-- Byte output of the base64 quanta.  A final group of two or three data
characters (the padded call site) contributes one or two bytes; CPython's
decoder DROPS the unused low bits of the last character WITHOUT checking
that they are zero, and this model reproduces that. -/
def b64Quanta : List Nat → Option (List Nat)
| [] => some []
| v1 :: v2 :: v3 :: v4 :: rest => do
  let r ← b64Quanta rest
  some ((v1 * 4 + v2 / 16) :: (v2 % 16 * 16 + v3 / 4) :: (v3 % 4 * 64 + v4) :: r)
| [v1, v2, v3] => some [v1 * 4 + v2 / 16, (v2 % 16) * 16 + v3 / 4]
| [v1, v2] => some [v1 * 4 + v2 / 16]
| [_] => none

/-- Models `base64.urlsafe_b64decode(s + "==")` as `sem_compress_value`
calls it on an 86-character candidate.  A character outside both base64
alphabets fails the call here; CPython instead discards such characters,
which on an 86-character input always yields fewer than 64 bytes, so the
caller's `len(raw) == 64` test rejects the string either way. -/
def urlsafeB64DecodePad2 (s : String) : Option (List Nat) := do
  let vals ← s.data.mapM b64CharVal
  b64Quanta vals

/-- Character of a 6-bit value in the URL-safe base64 alphabet. -/
def b64UrlChar (v : Nat) : Char :=
  if v < 26 then Char.ofNat (65 + v)
  else if v < 52 then Char.ofNat (97 + v - 26)
  else if v < 62 then Char.ofNat (48 + v - 52)
  else if v = 62 then '-' else '_'

/-- Models `base64.urlsafe_b64encode(bs).rstrip(b"=").decode()`. -/
def urlsafeB64EncodeNoPad : List Nat → List Char
| [] => []
| b1 :: b2 :: b3 :: rest =>
  b64UrlChar (b1 / 4) :: b64UrlChar (b1 % 4 * 16 + b2 / 16) ::
  b64UrlChar (b2 % 16 * 4 + b3 / 64) :: b64UrlChar (b3 % 64) ::
  urlsafeB64EncodeNoPad rest
| [b1, b2] => [b64UrlChar (b1 / 4), b64UrlChar (b1 % 4 * 16 + b2 / 16),
               b64UrlChar (b2 % 16 * 4)]
| [b1] => [b64UrlChar (b1 / 4), b64UrlChar (b1 % 4 * 16)]

/-- Big-endian base-256 digits of a natural number (empty for zero). -/
def natToBytesBE : Nat → List Nat
| 0 => []
| n + 1 => natToBytesBE ((n + 1) / 256) ++ [(n + 1) % 256]
decreasing_by exact Nat.div_lt_self (Nat.succ_pos n) (by omega)

/-- The base58btc alphabet. -/
def base58Alphabet : List Char :=
  "123456789ABCDEFGHJKLMNPQRSTUVWXYZabcdefghijkmnopqrstuvwxyz".data

/-- Base58btc digits of a natural number (empty for zero). -/
def natToBase58 : Nat → List Char
| 0 => []
| n + 1 => natToBase58 ((n + 1) / 58) ++ [base58Alphabet.getD ((n + 1) % 58) '1']
decreasing_by exact Nat.div_lt_self (Nat.succ_pos n) (by omega)

/-- Base58btc decoding of a digit string (leading `1`s are zero bytes, the
rest is a big base-58 number). -/
def base58Decode (s : String) : Option (List Nat) := do
  let vals ← s.data.mapM (fun c => base58Alphabet.findIdx? (· = c))
  let zeros := (s.data.takeWhile (· = '1')).length
  some (List.replicate zeros 0 ++
        natToBytesBE (vals.foldl (fun acc v => acc * 58 + v) 0))

/-- Base58btc encoding of a byte string. -/
def base58Encode (bs : List Nat) : String :=
  let zeros := (bs.takeWhile (· = 0)).length
  String.mk (List.replicate zeros '1' ++
             natToBase58 (bs.foldl (fun acc b => acc * 256 + b) 0))

/-- Big-endian bits of an `width`-bit value. -/
def toBits (width n : Nat) : List Bool :=
  (List.range width).map (fun i => n / 2 ^ (width - 1 - i) % 2 = 1)

/-- Value of a big-endian bit list. -/
def fromBits (l : List Bool) : Nat :=
  l.foldl (fun a b => a * 2 + (if b then 1 else 0)) 0

/-- Split into chunks of `k + 1` elements (last chunk may be short). -/
def chunkList (k : Nat) : List α → List (List α)
| [] => []
| a :: l => (a :: l.take k) :: chunkList k (l.drop k)
termination_by l => l.length
decreasing_by simp [List.length_drop]; omega

/-- Value of a character in the RFC 4648 lowercase base32 alphabet. -/
def b32CharVal (c : Char) : Option Nat :=
  if 'a' ≤ c ∧ c ≤ 'z' then some (c.toNat - 97)
  else if '2' ≤ c ∧ c ≤ '7' then some (c.toNat - 50 + 26)
  else none

/-- RFC 4648 lowercase base32 decoding without padding (the body of a
multibase `b` string): leftover sub-byte bits must be zero. -/
def b32DecodeBody (s : String) : Option (List Nat) := do
  let vals ← s.data.mapM b32CharVal
  let bits := vals.flatMap (toBits 5)
  let full := bits.length / 8 * 8
  if (bits.drop full).all (· = false) then
    some ((chunkList 7 (bits.take full)).map fromBits)
  else none

/-- Character of a 5-bit value in the lowercase base32 alphabet. -/
def b32Char (v : Nat) : Char :=
  if v < 26 then Char.ofNat (97 + v) else Char.ofNat (50 + v - 26)

/-- RFC 4648 lowercase base32 encoding without padding. -/
def b32EncodeLower (bs : List Nat) : String :=
  let bits := bs.flatMap (toBits 8)
  let padded := bits ++ List.replicate ((5 - bits.length % 5) % 5) false
  String.mk ((chunkList 4 padded).map (fun c => b32Char (fromBits c)))

/-- Value of a lowercase hex character. -/
def hexVal (c : Char) : Option Nat :=
  if '0' ≤ c ∧ c ≤ '9' then some (c.toNat - 48)
  else if 'a' ≤ c ∧ c ≤ 'f' then some (c.toNat - 97 + 10)
  else none

/-- Base16 (lowercase) decoding of a multibase `f` body. -/
def b16Decode (s : String) : Option (List Nat) := do
  let vals ← s.data.mapM hexVal
  if vals.length % 2 = 0 then
    some ((chunkList 1 vals).map (fun p => p.getD 0 0 * 16 + p.getD 1 0))
  else none

/-- Models `multiformats.multibase.decode` for the multibase prefixes that
occur in did:plc data: `z` (base58btc), `b` (base32 lower, no padding) and
`f` (base16 lower).  Other prefixes and malformed payloads fail (`none`),
modelling the library's raised error; python-multiformats knows further
prefixes, which this codec's data never uses. -/
def multibaseDecode (s : String) : Option (List Nat) :=
  match s.data with
  | [] => none
  | c :: rest =>
    if c = 'z' then base58Decode (String.mk rest)
    else if c = 'b' then b32DecodeBody (String.mk rest)
    else if c = 'f' then b16Decode (String.mk rest)
    else none

/-- Models `multiformats.multibase.encode(bs, "base32")`. -/
def multibaseEncodeBase32 (bs : List Nat) : String :=
  "b" ++ b32EncodeLower bs

/-- Models `multiformats.multibase.encode(bs, "base58btc")`. -/
def multibaseEncodeBase58 (bs : List Nat) : String :=
  "z" ++ base58Encode bs

/-! ## Semantic tag compression -/

/-- Worker for `strStarts`: first argument is the candidate head. -/
def charsStart : List Char → List Char → Bool
| [], _ => true
| _ :: _, [] => false
| a :: r, b :: t => a == b && charsStart r t

/-- Python `s.startswith(p)`, on character lists (structural, so concrete
evaluation reduces definitionally). -/
def strStarts (s p : String) : Bool := charsStart p.data s.data

/-- Python `s[n:]` for a character count `n`. -/
def strDropChars (s : String) (n : Nat) : String := String.mk (s.data.drop n)

def TAG_SIG : Nat := 6
def TAG_CID : Nat := 7
def TAG_DID_KEY : Nat := 8
def TAG_AT_URI : Nat := 9

/-- `sem_compress_value(val)` from the source.  Fails (`none`) exactly where
the Python raises: a `did:key:` or `bafyrei` string whose multibase payload
does not decode (only the base64 attempt is wrapped in try/except). -/
def sem_compress_value : Tree → Option Tree
| .str val =>
  if strStarts val "did:key:" then
    (multibaseDecode (strDropChars val 8)).map
      (fun bs => .tagged TAG_DID_KEY (.bytes bs))
  else if strStarts val "at://" then
    some (.tagged TAG_AT_URI (.str (strDropChars val 5)))
  else if strStarts val "bafyrei" && val.length = 59 then
    (multibaseDecode val).map (fun bs => .tagged TAG_CID (.bytes bs))
  else if val.length = 86 then
    match urlsafeB64DecodePad2 val with
    | some raw =>
      if raw.length = 64 then some (.tagged TAG_SIG (.bytes raw))
      else some (.str val)
    | none => some (.str val)
  else some (.str val)
| v => some v

/-- `sem_decompress_value(val)` from the source.  Fails (`none`) where the
Python raises: a recognized tag whose payload has the wrong leaf kind. -/
def sem_decompress_value : Tree → Option Tree
| .tagged t payload =>
  if t = TAG_SIG then
    match payload with
    | .bytes bs => some (.str (String.mk (urlsafeB64EncodeNoPad bs)))
    | _ => none
  else if t = TAG_CID then
    match payload with
    | .bytes bs => some (.str (multibaseEncodeBase32 bs))
    | _ => none
  else if t = TAG_DID_KEY then
    match payload with
    | .bytes bs => some (.str ("did:key:" ++ multibaseEncodeBase58 bs))
    | _ => none
  else if t = TAG_AT_URI then
    match payload with
    | .str s => some (.str ("at://" ++ s))
    | _ => none
  else some (.tagged t payload)
| v => some v

mutual

/-- `sem_compress(obj)`: recursive semantic tag compression.  Dict keys are
reproduced verbatim; only non-container values reach
`sem_compress_value`. -/
def sem_compress : Tree → Option Tree
| .map kvs => (semCompressEntries kvs).map .map
| .seq xs => (semCompressElems xs).map .seq
| v => sem_compress_value v

def semCompressEntries : List (String × Tree) → Option (List (String × Tree))
| [] => some []
| (k, v) :: r => do
  let v2 ← sem_compress v
  let r2 ← semCompressEntries r
  some ((k, v2) :: r2)

def semCompressElems : List Tree → Option (List Tree)
| [] => some []
| x :: r => do
  let x2 ← sem_compress x
  let r2 ← semCompressElems r
  some (x2 :: r2)

end

mutual

/-- `sem_decompress(obj)`: recursive semantic tag expansion. -/
def sem_decompress : Tree → Option Tree
| .tagged t p => sem_decompress_value (.tagged t p)
| .map kvs => (semDecompressEntries kvs).map .map
| .seq xs => (semDecompressElems xs).map .seq
| v => some v

def semDecompressEntries : List (String × Tree) → Option (List (String × Tree))
| [] => some []
| (k, v) :: r => do
  let v2 ← sem_decompress v
  let r2 ← semDecompressEntries r
  some ((k, v2) :: r2)

def semDecompressElems : List Tree → Option (List Tree)
| [] => some []
| x :: r => do
  let x2 ← sem_decompress x
  let r2 ← semDecompressElems r
  some (x2 :: r2)

end

/-! ## CBOR serialization

Models of `cbor2.dumps` / `cbor2.loads` and `dag_cbor.encode` on the value
shapes the codec serializes: definite lengths, minimal integer heads.
Indefinite-length items and floating-point values are outside the model
(the codec never produces them). -/

/-- Big-endian bytes of `n` in exactly `k` bytes. -/
def beBytes (k n : Nat) : List Nat :=
  (List.range k).map (fun i => n / 2 ^ (8 * (k - 1 - i)) % 256)

/-- CBOR head for a major type and argument, minimal length. -/
def cborHead (major n : Nat) : List Nat :=
  if n < 24 then [major * 32 + n]
  else if n < 256 then [major * 32 + 24, n]
  else if n < 65536 then (major * 32 + 25) :: beBytes 2 n
  else if n < 4294967296 then (major * 32 + 26) :: beBytes 4 n
  else (major * 32 + 27) :: beBytes 8 n

/-- UTF-8 bytes of one character. -/
def charUtf8 (c : Char) : List Nat :=
  let n := c.toNat
  if n < 128 then [n]
  else if n < 2048 then [192 + n / 64, 128 + n % 64]
  else if n < 65536 then [224 + n / 4096, 128 + n / 64 % 64, 128 + n % 64]
  else [240 + n / 262144, 128 + n / 4096 % 64, 128 + n / 64 % 64, 128 + n % 64]

/-- UTF-8 bytes of a string. -/
def utf8Bytes (s : String) : List Nat := s.data.flatMap charUtf8

mutual

/-- Models `cbor2.dumps` on one tree value: definite lengths, map entries
in insertion order, minimal-length integer heads; integers of magnitude
≥ 2^64 become the bignum tags 2/3 (the codec's data never reaches them, but
the model is total). -/
def cborEncode : Tree → List Nat
| .map kvs => cborHead 5 kvs.length ++ cborEncodeEntries kvs
| .seq xs => cborHead 4 xs.length ++ cborEncodeElems xs
| .str s => cborHead 3 (utf8Bytes s).length ++ utf8Bytes s
| .bytes bs => cborHead 2 bs.length ++ bs
| .int i =>
  if 0 ≤ i then
    if i.toNat < 2 ^ 64 then cborHead 0 i.toNat
    else cborHead 6 2 ++ cborHead 2 (natToBytesBE i.toNat).length ++
         natToBytesBE i.toNat
  else
    if (-1 - i).toNat < 2 ^ 64 then cborHead 1 (-1 - i).toNat
    else cborHead 6 3 ++ cborHead 2 (natToBytesBE (-1 - i).toNat).length ++
         natToBytesBE (-1 - i).toNat
| .bool b => if b then [245] else [244]
| .null => [246]
| .tagged t p => cborHead 6 t ++ cborEncode p

def cborEncodeEntries : List (String × Tree) → List Nat
| [] => []
| (k, v) :: r =>
  cborHead 3 (utf8Bytes k).length ++ utf8Bytes k ++ cborEncode v ++
  cborEncodeEntries r

def cborEncodeElems : List Tree → List Nat
| [] => []
| x :: r => cborEncode x ++ cborEncodeElems r

end

/-- Read exactly `k` bytes. -/
def readBytes (k : Nat) (l : List Nat) : Option (List Nat × List Nat) :=
  if l.length < k then none else some (l.take k, l.drop k)

/-- Big-endian value of a byte list. -/
def beVal (bs : List Nat) : Nat := bs.foldl (fun a b => a * 256 + b) 0

/-- Parse a CBOR head: major type, argument, remaining bytes.  Indefinite
lengths (additional info 28–31) are outside the model. -/
def readHead (l : List Nat) : Option (Nat × Nat × List Nat) :=
  match l with
  | [] => none
  | b :: rest =>
    let major := b / 32
    let info := b % 32
    if info < 24 then some (major, info, rest)
    else if info = 24 then
      match rest with
      | x :: r => some (major, x, r)
      | [] => none
    else if info = 25 then (readBytes 2 rest).map (fun p => (major, beVal p.1, p.2))
    else if info = 26 then (readBytes 4 rest).map (fun p => (major, beVal p.1, p.2))
    else if info = 27 then (readBytes 8 rest).map (fun p => (major, beVal p.1, p.2))
    else none

/-- UTF-8 decoding with validation (overlong encodings, surrogates and
out-of-range code points rejected). -/
def utf8DecodeList : List Nat → Option (List Char)
| [] => some []
| b :: rest =>
  if b < 128 then (utf8DecodeList rest).map (Char.ofNat b :: ·)
  else if 192 ≤ b ∧ b < 224 then
    match rest with
    | b2 :: r =>
      if 128 ≤ b2 ∧ b2 < 192 then
        let n := (b - 192) * 64 + (b2 - 128)
        if 128 ≤ n then (utf8DecodeList r).map (Char.ofNat n :: ·) else none
      else none
    | [] => none
  else if 224 ≤ b ∧ b < 240 then
    match rest with
    | b2 :: b3 :: r =>
      if (128 ≤ b2 ∧ b2 < 192) ∧ (128 ≤ b3 ∧ b3 < 192) then
        let n := (b - 224) * 4096 + (b2 - 128) * 64 + (b3 - 128)
        if 2048 ≤ n ∧ ¬(55296 ≤ n ∧ n < 57344) then
          (utf8DecodeList r).map (Char.ofNat n :: ·)
        else none
      else none
    | _ => none
  else if 240 ≤ b ∧ b < 248 then
    match rest with
    | b2 :: b3 :: b4 :: r =>
      if (128 ≤ b2 ∧ b2 < 192) ∧ (128 ≤ b3 ∧ b3 < 192) ∧ (128 ≤ b4 ∧ b4 < 192) then
        let n := (b - 240) * 262144 + (b2 - 128) * 4096 + (b3 - 128) * 64 + (b4 - 128)
        if 65536 ≤ n ∧ n < 1114112 then
          (utf8DecodeList r).map (Char.ofNat n :: ·)
        else none
      else none
    | _ => none
  else none

mutual

/-- Models `cbor2.loads` on one item, fuelled by the input length.  Maps are
rebuilt with dict-insertion semantics; non-string map keys are outside the
string-keyed embedding and fail.  Tags 2/3 are parsed back to (big) ints as
`cbor2` does; floats and simple values other than false/true/null are
outside the model. -/
def cborDecodeItem : Nat → List Nat → Option (Tree × List Nat)
| 0, _ => none
| fuel + 1, l => do
  let (major, arg, rest) ← readHead l
  if major = 0 then some (.int (Int.ofNat arg), rest)
  else if major = 1 then some (.int (-1 - Int.ofNat arg), rest)
  else if major = 2 then do
    let (bs, r) ← readBytes arg rest
    some (.bytes bs, r)
  else if major = 3 then do
    let (bs, r) ← readBytes arg rest
    let cs ← utf8DecodeList bs
    some (.str (String.mk cs), r)
  else if major = 4 then do
    let (xs, r) ← cborDecodeList fuel arg rest
    some (.seq xs, r)
  else if major = 5 then do
    let (prs, r) ← cborDecodePairs fuel arg rest
    some (.map (prs.foldl (fun m p => dictSet m p.1 p.2) []), r)
  else if major = 6 then do
    let (p, r) ← cborDecodeItem fuel rest
    if arg = 2 then
      match p with
      | .bytes bs => some (.int (Int.ofNat (beVal bs)), r)
      | _ => none
    else if arg = 3 then
      match p with
      | .bytes bs => some (.int (-1 - Int.ofNat (beVal bs)), r)
      | _ => none
    else some (.tagged arg p, r)
  else
    if arg = 20 then some (.bool false, rest)
    else if arg = 21 then some (.bool true, rest)
    else if arg = 22 then some (.null, rest)
    else none

def cborDecodeList : Nat → Nat → List Nat → Option (List Tree × List Nat)
| 0, _, _ => none
| _ + 1, 0, l => some ([], l)
| fuel + 1, n + 1, l => do
  let (x, r) ← cborDecodeItem fuel l
  let (xs, r2) ← cborDecodeList fuel n r
  some (x :: xs, r2)

def cborDecodePairs : Nat → Nat → List Nat →
    Option (List (String × Tree) × List Nat)
| 0, _, _ => none
| _ + 1, 0, l => some ([], l)
| fuel + 1, n + 1, l => do
  let (k, r) ← cborDecodeItem fuel l
  match k with
  | .str ks => do
    let (v, r2) ← cborDecodeItem fuel r
    let (prs, r3) ← cborDecodePairs fuel n r2
    some ((ks, v) :: prs, r3)
  | _ => none

end

/-- Byte-lexicographic strict order used for DAG-CBOR key sorting. -/
def bytesLtB : List Nat → List Nat → Bool
| [], [] => false
| [], _ :: _ => true
| _ :: _, [] => false
| a :: r, b :: s => if a < b then true else if b < a then false else bytesLtB r s

/-- DAG-CBOR canonical key order: shorter UTF-8 key first, then
byte-lexicographic. -/
def dagKeyLeB (a b : String) : Bool :=
  (utf8Bytes a).length < (utf8Bytes b).length ||
  ((utf8Bytes a).length = (utf8Bytes b).length && !bytesLtB (utf8Bytes b) (utf8Bytes a))

mutual

/-- Models `dag_cbor.encode`: canonical DAG-CBOR bytes.  Map entries are
emitted in canonical key order regardless of dict insertion order; CBOR
tags are rejected by the library (it only emits tag 42 for its own CID
objects, which the codec never constructs), so `tagged` values fail;
integers outside 64-bit range likewise. -/
def dagCborEncode : Tree → Option (List Nat)
| .map kvs => do
  let encoded ← dagEncodeEntries kvs
  let sorted := List.insertionSort (fun p q => dagKeyLeB p.1 q.1 = true) encoded
  some (cborHead 5 kvs.length ++ sorted.flatMap Prod.snd)
| .seq xs => do
  let body ← dagEncodeElems xs
  some (cborHead 4 xs.length ++ body)
| .str s => some (cborHead 3 (utf8Bytes s).length ++ utf8Bytes s)
| .bytes bs => some (cborHead 2 bs.length ++ bs)
| .int i =>
  if 0 ≤ i then
    if i.toNat < 2 ^ 64 then some (cborHead 0 i.toNat) else none
  else
    if (-1 - i).toNat < 2 ^ 64 then some (cborHead 1 (-1 - i).toNat) else none
| .bool b => some (if b then [245] else [244])
| .null => some [246]
| .tagged _ _ => none

def dagEncodeEntries : List (String × Tree) → Option (List (String × List Nat))
| [] => some []
| (k, v) :: r => do
  let ev ← dagCborEncode v
  let er ← dagEncodeEntries r
  some ((k, cborHead 3 (utf8Bytes k).length ++ utf8Bytes k ++ ev) :: er)

def dagEncodeElems : List Tree → Option (List Nat)
| [] => some []
| x :: r => do
  let ex ← dagCborEncode x
  let er ← dagEncodeElems r
  some (ex ++ er)

end

/-! ## Chain codec (`compress` / `decompress`) -/

/-- Ascending sort of an index-keyed association list
(`sorted(d.items())`; indices are unique, so the value part of the Python
tuple comparison is never consulted). -/
def sortByIdx (l : List (Nat × α)) : List (Nat × α) :=
  List.insertionSort (fun p q => p.1 ≤ q.1) l

/-- Ascending sort of the deletes set (`sorted(deletes)`). -/
def sortNats (l : List Nat) : List Nat :=
  List.insertionSort (fun a b => a ≤ b) l

/-- The diff record `compress` emits for one successor operation: one-letter
keys in the order "u", "d", "i", "p", present only when the component is
non-empty; `sem_compress_value` on update values (top level only),
`sem_compress` on insert/prepend subtrees. -/
def diffRecord (dd : Diff) : Option Tree := do
  let u ← (sortByIdx dd.updates).mapM (fun p => do
    let v ← sem_compress_value p.2
    some (Tree.seq [.int p.1, v]))
  let iPairs := (sortByIdx dd.inserts).flatMap (fun p => p.2.map ((p.1, ·)))
  let i ← iPairs.mapM (fun p => do
    let v ← sem_compress p.2
    some (Tree.seq [.int p.1, v]))
  let pPairs := (sortByIdx dd.prepends).flatMap (fun p => p.2.map ((p.1, ·)))
  let pp ← pPairs.mapM (fun p => do
    let v ← sem_compress p.2
    some (Tree.seq [.int p.1, v]))
  let d := (sortNats dd.deletes).map (fun n => Tree.int n)
  some (.map
    ((if dd.updates.isEmpty then [] else [("u", Tree.seq u)]) ++
     (if dd.deletes.isEmpty then [] else [("d", Tree.seq d)]) ++
     (if dd.inserts.isEmpty then [] else [("i", Tree.seq i)]) ++
     (if dd.prepends.isEmpty then [] else [("p", Tree.seq pp)])))

/-- The successor loop of `compress`: one diff record per adjacent pair. -/
def compressDiffs (prev : Tree) : List Tree → Option (List Tree)
| [] => some []
| op :: rest => do
  let r ← diffRecord (compute_diff prev op)
  let more ← compressDiffs op rest
  some (r :: more)

/-- `compress(operations)` from the source.  The empty chain fails (`none`):
the source reads `operations[0]` unconditionally, raising `IndexError`. -/
def compress : List Tree → Option (List Nat)
| [] => none
| op0 :: rest => do
  let first ← sem_compress op0
  let diffs ← compressDiffs op0 rest
  some (cborEncode (.seq (first :: diffs)))

/-- A diff index read back from the blob.  Negative integers never arise
from `compress` and never match a walk counter; the model rejects them. -/
def parseIdx : Tree → Option Nat
| .int i => if 0 ≤ i then some i.toNat else none
| _ => none

/-- Python dict assignment on a Nat-keyed association list. -/
def natSet (l : List (Nat × Tree)) (i : Nat) (v : Tree) : List (Nat × Tree) :=
  match l with
  | [] => [(i, v)]
  | (j, w) :: r => if j = i then (j, v) :: r else (j, w) :: natSet r i v

/-- Worker for the "u"-field dict comprehension. -/
def parseUpdatesGo : List Tree → List (Nat × Tree) → Option (List (Nat × Tree))
| [], acc => some acc
| .seq [iv, vv] :: rest, acc => do
  let i ← parseIdx iv
  let v ← sem_decompress_value vv
  parseUpdatesGo rest (natSet acc i v)
| _, _ => none

/-- `{idx: sem_decompress_value(val) for idx, val in diff["u"]}` (a dict
comprehension: a repeated index overwrites in place). -/
def parseUpdates (ts : List Tree) : Option (List (Nat × Tree)) :=
  parseUpdatesGo ts []

/-- `d.setdefault(idx, []).append(sem_decompress(val))` over the entries of
an "i" or "p" field. -/
def parseGrouped : List Tree → List (Nat × List Tree) →
    Option (List (Nat × List Tree))
| [], acc => some acc
| .seq [iv, vv] :: rest, acc => do
  let i ← parseIdx iv
  let v ← sem_decompress vv
  parseGrouped rest (addAssoc acc i v)
| _, _ => none

/-- Rebuild a `Diff` from a decoded diff record (the field-reading block of
`decompress`). -/
def decompressDiff : Tree → Option Diff
| .map fields => do
  let u ←
    match lookupStr fields "u" with
    | none => some []
    | some (.seq items) => parseUpdates items
    | some _ => none
  let d ←
    match lookupStr fields "d" with
    | none => some []
    | some (.seq items) => items.mapM parseIdx
    | some _ => none
  let i ←
    match lookupStr fields "i" with
    | none => some []
    | some (.seq items) => parseGrouped items []
    | some _ => none
  let p ←
    match lookupStr fields "p" with
    | none => some []
    | some (.seq items) => parseGrouped items []
    | some _ => none
  some ⟨u, d, i, p⟩
| _ => none

/-- The reconstruction loop of `decompress`. -/
def decompressFold (prev : Tree) : List Tree → Option (List Tree)
| [] => some [prev]
| dt :: rest => do
  let dd ← decompressDiff dt
  let next ← apply_diff prev dd
  let more ← decompressFold next rest
  some (prev :: more)

/-- `decompress(data)` from the source.  A blob decoding to an empty
sequence fails (`entries[0]` raises `IndexError`). -/
def decompress (data : List Nat) : Option (List Tree) := do
  let (entries, _) ← cborDecodeItem (data.length + 1) data
  match entries with
  | .seq (e0 :: diffs) => do
    let op0 ← sem_decompress e0
    decompressFold op0 diffs
  | _ => none

/-! ## Derived notions used by the theorem statements -/

/-- The container/key shape of a tree: map keys (in iteration order) and
sequence positions, with every leaf collapsed.  Two trees with the same
skeleton have identical key sets and key iteration order at every map. -/
inductive Skel where
| map : List (String × Skel) → Skel
| seq : List Skel → Skel
| leaf : Skel
deriving Repr

mutual

/-- Skeleton of a tree. -/
def skeleton : Tree → Skel
| .map kvs => .map (skelEntries kvs)
| .seq xs => .seq (skelElems xs)
| _ => .leaf

def skelEntries : List (String × Tree) → List (String × Skel)
| [] => []
| (k, v) :: r => (k, skeleton v) :: skelEntries r

def skelElems : List Tree → List Skel
| [] => []
| x :: r => skeleton x :: skelElems r

end

/-- Every index mentioned anywhere in a diff. -/
def diffIndices (dd : Diff) : List Nat :=
  dd.updates.map Prod.fst ++ dd.deletes ++ dd.inserts.map Prod.fst ++
  dd.prepends.map Prod.fst

/-- All subtrees carried inside a diff (update values, insert values,
prepend values) satisfy CAN-1. -/
def diffCanonB (dd : Diff) : Bool :=
  dd.updates.all (fun p => isCanon p.2) &&
  dd.inserts.all (fun p => p.2.all isCanon) &&
  dd.prepends.all (fun p => p.2.all isCanon)

/-! ### Concrete trees used by the evaluation theorems -/

/-- Spec scenario 1: `A = {"k": "a", "n": 1}`. -/
def exA : Tree := .map [("k", .str "a"), ("n", .int 1)]

/-- Spec scenario 1: `B = {"k": "b", "n": 1}`. -/
def exB : Tree := .map [("k", .str "b"), ("n", .int 1)]

/-- Old tree with a nested map that the new tree replaces by a leaf:
`{"a": {"x": 1}, "b": 2}`. -/
def exOld : Tree := .map [("a", .map [("x", .int 1)]), ("b", .int 2)]

/-- New tree for the type-mismatch scenario: `{"a": 5, "b": 3}`. -/
def exNew : Tree := .map [("a", .int 5), ("b", .int 3)]

/-- An 86-character base64url-alphabet string with nonzero trailing bits:
85 `A`s followed by one `B`. -/
def sigStr : String := String.mk (List.replicate 85 'A' ++ ['B'])

/-- The canonical base64url encoding of 64 zero bytes: 86 `A`s. -/
def sigStrA : String := String.mk (List.replicate 86 'A')

/-! # Theorems -/

/-- Structural induction over `Tree` with member hypotheses for the nested
lists. -/
theorem Tree.nestedInduction (motive : Tree → Prop)
    (hmap : ∀ kvs, (∀ p ∈ kvs, motive p.2) → motive (.map kvs))
    (hseq : ∀ xs, (∀ x ∈ xs, motive x) → motive (.seq xs))
    (hstr : ∀ s, motive (.str s))
    (hbytes : ∀ bs, motive (.bytes bs))
    (hint : ∀ i, motive (.int i))
    (hbool : ∀ b, motive (.bool b))
    (hnull : motive .null)
    (htagged : ∀ n p, motive p → motive (.tagged n p)) :
    ∀ t, motive t
| .map kvs => hmap kvs (fun p _hp =>
    Tree.nestedInduction motive hmap hseq hstr hbytes hint hbool hnull htagged p.2)
| .seq xs => hseq xs (fun x _ =>
    Tree.nestedInduction motive hmap hseq hstr hbytes hint hbool hnull htagged x)
| .str s => hstr s
| .bytes bs => hbytes bs
| .int i => hint i
| .bool b => hbool b
| .null => hnull
| .tagged n p => htagged n p
    (Tree.nestedInduction motive hmap hseq hstr hbytes hint hbool hnull htagged p)
termination_by t => sizeOf t
decreasing_by
· have h1 := List.sizeOf_lt_of_mem _hp
  obtain ⟨a, b⟩ := p
  simp only [Prod.mk.sizeOf_spec] at h1
  simp only [Tree.map.sizeOf_spec]
  omega
· rename_i hx
  have h1 := List.sizeOf_lt_of_mem hx
  simp only [Tree.seq.sizeOf_spec]
  omega
· simp only [Tree.tagged.sizeOf_spec]
  omega

/-! ### C6: `count_indices` versus `build_index` -/

/-- Entries part of the shared-walk bookkeeping for C6. -/
theorem buildIndexEntries_spec (kvs : List (String × Tree))
    (IH : ∀ p ∈ kvs, ∀ c : Nat,
      (buildIndexFrom p.2 c).1.length + numEntries p.2 = count_indices p.2 ∧
      (buildIndexFrom p.2 c).2 = c + count_indices p.2) :
    ∀ c : Nat,
      (buildIndexEntries kvs c).1.length + numEntriesOfList kvs = countEntries kvs ∧
      (buildIndexEntries kvs c).2 = c + countEntries kvs := by
  induction kvs with
  | nil => intro c; simp [buildIndexEntries, numEntriesOfList, countEntries]
  | cons p r ih =>
    intro c
    obtain ⟨k, v⟩ := p
    have hv := IH (k, v) (by simp) (c + 2)
    have hr := ih (fun q hq => IH q (List.mem_cons_of_mem _ hq))
      (buildIndexFrom v (c + 2)).2
    simp only [buildIndexEntries, numEntriesOfList, countEntries,
      List.length_cons, List.length_append] at hv hr ⊢
    omega

/-- Elements part of the shared-walk bookkeeping for C6. -/
theorem buildIndexElems_spec (xs : List Tree)
    (IH : ∀ x ∈ xs, ∀ c : Nat,
      (buildIndexFrom x c).1.length + numEntries x = count_indices x ∧
      (buildIndexFrom x c).2 = c + count_indices x) :
    ∀ c : Nat,
      (buildIndexElems xs c).1.length + numEntriesOfElems xs = countElems xs ∧
      (buildIndexElems xs c).2 = c + countElems xs := by
  induction xs with
  | nil => intro c; simp [buildIndexElems, numEntriesOfElems, countElems]
  | cons x r ih =>
    intro c
    have hx := IH x (by simp) c
    have hr := ih (fun q hq => IH q (List.mem_cons_of_mem _ hq))
      (buildIndexFrom x c).2
    simp only [buildIndexElems, numEntriesOfElems, countElems,
      List.length_append] at hx hr ⊢
    omega

/-- The shared walk of `build_index` and `count_indices`: the walk consumes
exactly `count_indices` indices, and stores one entry for each of them
except the map-entry markers. -/
theorem buildIndexFrom_spec : ∀ t : Tree, ∀ c : Nat,
    (buildIndexFrom t c).1.length + numEntries t = count_indices t ∧
    (buildIndexFrom t c).2 = c + count_indices t := by
  intro t
  induction t using Tree.nestedInduction with
  | hmap kvs ih =>
    intro c
    have h := buildIndexEntries_spec kvs ih (c + 1)
    simp only [buildIndexFrom, numEntries, count_indices, List.length_cons] at h ⊢
    omega
  | hseq xs ih =>
    intro c
    have h := buildIndexElems_spec xs ih (c + 1)
    simp only [buildIndexFrom, numEntries, count_indices, List.length_cons] at h ⊢
    omega
  | hstr s => intro c; simp [buildIndexFrom, numEntries, count_indices]
  | hbytes bs => intro c; simp [buildIndexFrom, numEntries, count_indices]
  | hint i => intro c; simp [buildIndexFrom, numEntries, count_indices]
  | hbool b => intro c; simp [buildIndexFrom, numEntries, count_indices]
  | hnull => intro c; simp [buildIndexFrom, numEntries, count_indices]
  | htagged n p _ => intro c; simp [buildIndexFrom, numEntries, count_indices]

/-- C6, counterexample: for `T = {"k": "a"}`, `count_indices(T)` is 4 but
`build_index(T)` stores only 3 entries (the map-entry marker consumes an
index without being stored), so the two are not equal as the claim
states. -/
theorem c6_count_neq_build_index_length :
    count_indices (.map [("k", .str "a")]) ≠
    (build_index (.map [("k", .str "a")])).length := by decide

/-- C6 (amended): `count_indices(T)` equals the number of indices the
shared `build_index` walk consumes; the stored index→node mapping omits
exactly one administrative slot per map entry, so the count equals the
mapping's length plus the number of map entries in `T`. -/
theorem c6_count_indices_eq_walk :
    ∀ (T : Tree) (c : Nat),
      (buildIndexFrom T c).2 = c + count_indices T ∧
      count_indices T = (build_index T).length + numEntries T := by
  intro T c
  refine ⟨(buildIndexFrom_spec T c).2, ?_⟩
  have h := (buildIndexFrom_spec T 0).1
  unfold build_index
  omega

/-! ### C10: `sem_compress` preserves the key skeleton -/

/-- `sem_compress_value` never changes the skeleton of a value: strings
become tagged leaves or stay strings, and every other value passes through
unchanged. -/
theorem sem_compress_value_skel (v t : Tree)
    (h : sem_compress_value v = some t) : skeleton t = skeleton v := by
  cases v with
  | str s =>
    simp only [sem_compress_value] at h
    split_ifs at h with h1 h2 h3 h4
    · obtain ⟨bs, _, rfl⟩ := Option.map_eq_some'.1 h
      rfl
    · obtain rfl := Option.some.inj h
      rfl
    · obtain ⟨bs, _, rfl⟩ := Option.map_eq_some'.1 h
      rfl
    · revert h
      cases hb : urlsafeB64DecodePad2 s with
      | none => intro h; obtain rfl := Option.some.inj h; rfl
      | some raw =>
        intro h
        by_cases hl : raw.length = 64
        · simp only [hl, if_true] at h
          obtain rfl := Option.some.inj h
          rfl
        · simp only [hl, if_false] at h
          obtain rfl := Option.some.inj h
          rfl
    · obtain rfl := Option.some.inj h
      rfl
  | map kvs => obtain rfl := Option.some.inj h; rfl
  | seq xs => obtain rfl := Option.some.inj h; rfl
  | bytes bs => obtain rfl := Option.some.inj h; rfl
  | int i => obtain rfl := Option.some.inj h; rfl
  | bool b => obtain rfl := Option.some.inj h; rfl
  | null => obtain rfl := Option.some.inj h; rfl
  | tagged n p => obtain rfl := Option.some.inj h; rfl

/-- Entries part of skeleton preservation. -/
theorem semCompressEntries_skel (kvs : List (String × Tree))
    (IH : ∀ p ∈ kvs, ∀ t, sem_compress p.2 = some t → skeleton t = skeleton p.2) :
    ∀ out, semCompressEntries kvs = some out → skelEntries out = skelEntries kvs := by
  induction kvs with
  | nil =>
    intro out h
    simp only [semCompressEntries, Option.some.injEq] at h
    subst h; rfl
  | cons p r ih =>
    intro out h
    obtain ⟨k, v⟩ := p
    rw [semCompressEntries] at h
    cases hv : sem_compress v with
    | none => rw [hv] at h; exact Option.noConfusion h
    | some v2 =>
      rw [hv] at h
      cases hr : semCompressEntries r with
      | none => rw [hr] at h; exact Option.noConfusion h
      | some r2 =>
        rw [hr] at h
        injection h with h
        subst h
        have h1 := IH (k, v) (by simp) v2 hv
        have h2 := ih (fun q hq => IH q (List.mem_cons_of_mem _ hq)) r2 hr
        simp [skelEntries, h1, h2]

/-- Elements part of skeleton preservation. -/
theorem semCompressElems_skel (xs : List Tree)
    (IH : ∀ x ∈ xs, ∀ t, sem_compress x = some t → skeleton t = skeleton x) :
    ∀ out, semCompressElems xs = some out → skelElems out = skelElems xs := by
  induction xs with
  | nil =>
    intro out h
    simp only [semCompressElems, Option.some.injEq] at h
    subst h; rfl
  | cons x r ih =>
    intro out h
    rw [semCompressElems] at h
    cases hx : sem_compress x with
    | none => rw [hx] at h; exact Option.noConfusion h
    | some x2 =>
      rw [hx] at h
      cases hr : semCompressElems r with
      | none => rw [hr] at h; exact Option.noConfusion h
      | some r2 =>
        rw [hr] at h
        injection h with h
        subst h
        have h1 := IH x (by simp) x2 hx
        have h2 := ih (fun q hq => IH q (List.mem_cons_of_mem _ hq)) r2 hr
        simp [skelElems, h1, h2]

/-- C10: semantic tag compression preserves every map's key set and key
iteration order exactly — the skeleton (all map keys in order, all sequence
positions) of `sem_compress(T)` equals that of `T`; keys are never
rewritten to tagged form even when they match a recognized shape, since
only leaf values reach `sem_compress_value`. -/
theorem c10_sem_compress_preserves_keys (T t : Tree)
    (h : sem_compress T = some t) : skeleton t = skeleton T := by
  induction T using Tree.nestedInduction generalizing t with
  | hmap kvs ih =>
    simp only [sem_compress, Option.map_eq_some'] at h
    obtain ⟨out, hout, rfl⟩ := h
    simp [skeleton, semCompressEntries_skel kvs ih out hout]
  | hseq xs ih =>
    simp only [sem_compress, Option.map_eq_some'] at h
    obtain ⟨out, hout, rfl⟩ := h
    simp [skeleton, semCompressElems_skel xs ih out hout]
  | hstr s => exact sem_compress_value_skel _ _ h
  | hbytes bs => exact sem_compress_value_skel _ _ h
  | hint i => exact sem_compress_value_skel _ _ h
  | hbool b => exact sem_compress_value_skel _ _ h
  | hnull => exact sem_compress_value_skel _ _ h
  | htagged n p _ => exact sem_compress_value_skel _ _ h

/-- C10, witness: a map whose keys match the `did:key:` and `at://` shapes
keeps them verbatim. -/
theorem c10_witness :
    sem_compress (.map [("did:key:zabc", .int 1), ("at://x", .null)]) =
      some (.map [("did:key:zabc", .int 1), ("at://x", .null)]) ∧
    skeleton (.map [("did:key:zabc", .int 1), ("at://x", .null)]) =
      skeleton (.map [("did:key:zabc", .int 1), ("at://x", .null)]) :=
  ⟨rfl, c10_sem_compress_preserves_keys _ _ rfl⟩

/-! ### C3: semantic tag round-trip fails on a non-canonical signature -/

set_option maxRecDepth 100000

/-- C3: the claimed identity `sem_decompress(sem_compress(T)) == T` fails on
the leaf string of 85 `A`s followed by `B` (86 base64url characters whose
final character has nonzero trailing bits): `sem_compress_value` tags it as
a 64-zero-byte signature because Python's base64 decoder drops the trailing
bits, and decompression returns 86 `A`s — a different string. -/
theorem c3_sem_roundtrip_fails_eval :
    (sem_compress_value (.str sigStr)).bind sem_decompress_value =
      some (.str sigStrA) ∧
    sem_decompress (.tagged TAG_SIG (.bytes (List.replicate 64 0))) =
      some (.str sigStrA) ∧
    sigStrA ≠ sigStr := by
  refine ⟨by decide, by decide, by decide⟩

/-! ### C1: chain round-trip fails on the same string -/

/-- C1: the full pipeline corrupts the chain `[{"sig": sigStr}]`:
`decompress(compress(ops))` returns `[{"sig": 86 × "A"}]`, whose canonical
DAG-CBOR re-encoding differs from the original operation's. -/
theorem c1_roundtrip_fails_eval :
    (compress [.map [("sig", .str sigStr)]]).bind decompress =
      some [.map [("sig", .str sigStrA)]] ∧
    dagCborEncode (.map [("sig", .str sigStrA)]) ≠
      dagCborEncode (.map [("sig", .str sigStr)]) := by
  refine ⟨by decide, by decide⟩

/-! ### C2: apply-diff is not the inverse of compute-diff -/

/-- C2: for `A = {"a": {"x": 1}, "b": 2}` and `B = {"a": 5, "b": 3}`,
`apply_diff(A, compute_diff(A, B))` yields `{"a": 5, "b": 2}` — the update
to `"b"` is recorded at index 6 because the differ fails to advance past the
mismatched `{"x": 1}` subtree, while the patcher does advance — so the
result's canonical encoding differs from `B`'s. -/
theorem c2_diff_roundtrip_fails_eval :
    apply_diff exOld (compute_diff exOld exNew) =
      some (.map [("a", .int 5), ("b", .int 2)]) ∧
    dagCborEncode (.map [("a", .int 5), ("b", .int 2)]) ≠ dagCborEncode exNew := by
  refine ⟨by decide, by decide⟩

/-! ### C5: the type-mismatch branch does not advance the counter -/

/-- C5: on the same pair, `compute_diff` records the second update at index
6 — inside the old `{"x": 1}` subtree — because the type-mismatch branch
advances the shared counter by exactly one, not by
`count_indices({"x": 1}) = 4` as the claim states (index 3 plus the subtree
count would put the next consumed index at 7). -/
theorem c5_counter_not_advanced_eval :
    (compute_diff exOld exNew).updates = [(3, .int 5), (6, .int 3)] ∧
    6 < 3 + count_indices (.map [("x", .int 1)]) := by
  refine ⟨by decide, by decide⟩

/-! ### C9: the update-only scenario produces index 3, not 2 -/

/-- C9, counterexample: the emitted diff record for
`A = {"k": "a", "n": 1}`, `B = {"k": "b", "n": 1}` is not
`{"u": [[2, "b"]]}`. -/
theorem c9_record_not_index_two :
    diffRecord (compute_diff exA exB) ≠
      some (.map [("u", .seq [.seq [.int 2, .str "b"]])]) := by decide

/-- C9 (amended): the diff contains exactly one update, at index 3 — under
the Indexer's walk, index 0 is the map, 1 the entry marker of `"k"`, 2 the
key name `"k"`, and 3 its value — emitted as the record
`{"u": [[3, "b"]]}`, and applying the diff round-trips to B. -/
theorem c9_update_at_index_three :
    compute_diff exA exB = ⟨[(3, .str "b")], [], [], []⟩ ∧
    diffRecord (compute_diff exA exB) =
      some (.map [("u", .seq [.seq [.int 3, .str "b"]])]) ∧
    apply_diff exA (compute_diff exA exB) = some exB := by
  refine ⟨by decide, by decide, by decide⟩

/-! ### C4: boundary behaviour of the chain codec -/

/-- C4, counterexample: compressing the empty chain does not succeed — the
source reads `operations[0]` unconditionally. -/
theorem c4_empty_chain_fails : compress [] = none := rfl

/-- C4 (amended): compressing the empty chain fails with an index error
rather than producing the encoding of an empty sequence, and decompressing
the empty-sequence blob fails likewise (`entries[0]`); a single-operation
chain compresses to the encoding of a sequence holding only the
semantically-compressed full tree. -/
theorem c4_boundary (op t : Tree) (h : sem_compress op = some t) :
    compress [] = none ∧
    decompress (cborEncode (.seq [])) = none ∧
    compress [op] = some (cborEncode (.seq [t])) := by
  refine ⟨rfl, by decide, ?_⟩
  simp [compress, h, compressDiffs]

/-- C4, witness at the operation `{"n": 1}`. -/
theorem c4_boundary_witness :
    compress [] = none ∧
    decompress (cborEncode (.seq [])) = none ∧
    compress [.map [("n", .int 1)]] =
      some (cborEncode (.seq [.map [("n", .int 1)]])) :=
  c4_boundary (.map [("n", .int 1)]) (.map [("n", .int 1)]) rfl

/-! ### C8: indices beyond the walk are silently ignored -/

/-- Every tree consumes at least one index. -/
theorem count_indices_pos : ∀ t : Tree, 1 ≤ count_indices t := by
  intro t
  cases t <;> simp only [count_indices] <;> omega

/-- An association-list lookup misses every key not present. -/
theorem lookup_eq_none {α : Type} (l : List (Nat × α)) (i : Nat)
    (h : ∀ p ∈ l, p.1 ≠ i) : List.lookup i l = none := by
  induction l with
  | nil => rfl
  | cons p r ih =>
    obtain ⟨k, v⟩ := p
    have hik : (i == k) = false :=
      beq_eq_false_iff_ne.2 fun e => h (k, v) (by simp) e.symm
    simp only [List.lookup, hik]
    exact ih fun q hq => h q (List.mem_cons_of_mem _ hq)

/-- `List.contains` is false for a non-member. -/
theorem contains_eq_false (l : List Nat) (i : Nat) (h : i ∉ l) :
    l.contains i = false := by
  induction l with
  | nil => rfl
  | cons a r ih =>
    simp only [List.mem_cons, not_or] at h
    simp only [List.contains_cons, ih h.2, Bool.or_false]
    exact beq_eq_false_iff_ne.2 h.1

/-- An updates index is a diff index. -/
theorem mem_diffIndices_updates (dd : Diff) {q : Nat × Tree}
    (hq : q ∈ dd.updates) : q.1 ∈ diffIndices dd :=
  List.mem_append.2 (Or.inl (List.mem_append.2 (Or.inl
    (List.mem_append.2 (Or.inl (List.mem_map_of_mem Prod.fst hq))))))

/-- A deletes index is a diff index. -/
theorem mem_diffIndices_deletes (dd : Diff) {i : Nat}
    (hi : i ∈ dd.deletes) : i ∈ diffIndices dd :=
  List.mem_append.2 (Or.inl (List.mem_append.2 (Or.inl
    (List.mem_append.2 (Or.inr hi)))))

/-- An inserts index is a diff index. -/
theorem mem_diffIndices_inserts (dd : Diff) {q : Nat × List Tree}
    (hq : q ∈ dd.inserts) : q.1 ∈ diffIndices dd :=
  List.mem_append.2 (Or.inl (List.mem_append.2 (Or.inr
    (List.mem_map_of_mem Prod.fst hq))))

/-- A prepends index is a diff index. -/
theorem mem_diffIndices_prepends (dd : Diff) {q : Nat × List Tree}
    (hq : q ∈ dd.prepends) : q.1 ∈ diffIndices dd :=
  List.mem_append.2 (Or.inr (List.mem_map_of_mem Prod.fst hq))

/-- Entries loop of the out-of-range frame property. -/
theorem walkEntries_frame (dd : Diff) (kvs : List (String × Tree))
    (IH : ∀ p ∈ kvs, ∀ c : Nat,
      (∀ i ∈ diffIndices dd, i < c ∨ c + count_indices p.2 ≤ i) →
      walkTree dd p.2 c = some (p.2, c + count_indices p.2)) :
    ∀ c : Nat,
      (∀ i ∈ diffIndices dd, i < c ∨ c + countEntries kvs ≤ i) →
      walkEntries dd kvs c = some (kvs, [], c + countEntries kvs) := by
  induction kvs with
  | nil => intro c _; simp [walkEntries, countEntries]
  | cons p r ih =>
    intro c hc
    obtain ⟨k, v⟩ := p
    have hvpos := count_indices_pos v
    have hcnt : countEntries ((k, v) :: r) = 2 + count_indices v + countEntries r := rfl
    have hdel : dd.deletes.contains c = false := by
      refine contains_eq_false _ _ fun hmem => ?_
      have := hc c (mem_diffIndices_deletes dd hmem)
      omega
    have hv : walkTree dd v (c + 2) = some (v, c + 2 + count_indices v) :=
      IH (k, v) (by simp) (c + 2) (fun i hi => by
        have := hc i hi
        rw [hcnt] at this
        show i < c + 2 ∨ c + 2 + count_indices v ≤ i
        omega)
    have hupd : List.lookup (c + 2) dd.updates = none := by
      refine lookup_eq_none _ _ fun q hq e => ?_
      have h2 := hc q.1 (mem_diffIndices_updates dd hq)
      rw [hcnt] at h2
      omega
    have hr := ih (fun q hq => IH q (List.mem_cons_of_mem _ hq))
      (c + 2 + count_indices v) (fun i hi => by
        have := hc i hi
        rw [hcnt] at this
        omega)
    simp only [walkEntries, hdel, Bool.false_eq_true, if_false, hv, hupd, hr,
      Option.bind_eq_bind', Option.some_bind, Option.getD_none,
      Option.some.injEq, Prod.mk.injEq, true_and, and_true]
    rw [hcnt]
    omega

/-- Elements loop of the out-of-range frame property. -/
theorem walkElems_frame (dd : Diff) (xs : List Tree)
    (IH : ∀ x ∈ xs, ∀ c : Nat,
      (∀ i ∈ diffIndices dd, i < c ∨ c + count_indices x ≤ i) →
      walkTree dd x c = some (x, c + count_indices x)) :
    ∀ c : Nat,
      (∀ i ∈ diffIndices dd, i < c ∨ c + countElems xs ≤ i) →
      walkElems dd xs c = some (xs, c + countElems xs) := by
  induction xs with
  | nil => intro c _; simp [walkElems, countElems]
  | cons x r ih =>
    intro c hc
    have hxpos := count_indices_pos x
    have hcnt : countElems (x :: r) = count_indices x + countElems r := rfl
    have hdel : dd.deletes.contains c = false := by
      refine contains_eq_false _ _ fun hmem => ?_
      have := hc c (mem_diffIndices_deletes dd hmem)
      omega
    have hx : walkTree dd x c = some (x, c + count_indices x) :=
      IH x (by simp) c (fun i hi => by
        have := hc i hi
        rw [hcnt] at this
        omega)
    have hupd : List.lookup c dd.updates = none := by
      refine lookup_eq_none _ _ fun q hq e => ?_
      have h2 := hc q.1 (mem_diffIndices_updates dd hq)
      omega
    have hpre : List.lookup c dd.prepends = none := by
      refine lookup_eq_none _ _ fun q hq e => ?_
      have h2 := hc q.1 (mem_diffIndices_prepends dd hq)
      omega
    have hr := ih (fun q hq => IH q (List.mem_cons_of_mem _ hq))
      (c + count_indices x) (fun i hi => by
        have := hc i hi
        rw [hcnt] at this
        omega)
    simp only [walkElems, hdel, Bool.false_eq_true, if_false, hx, hupd, hpre, hr,
      Option.bind_eq_bind', Option.some_bind, Option.getD_none,
      List.nil_append, Option.some.injEq, Prod.mk.injEq, true_and, and_true]
    rw [hcnt]
    omega

/-- The walk ignores a diff whose indices all lie outside the range of
indices it consumes: it returns the subtree unchanged and consumes exactly
`count_indices` indices. -/
theorem walkTree_frame (dd : Diff) : ∀ t : Tree, ∀ c : Nat,
    (∀ i ∈ diffIndices dd, i < c ∨ c + count_indices t ≤ i) →
    walkTree dd t c = some (t, c + count_indices t) := by
  intro t
  induction t using Tree.nestedInduction with
  | hmap kvs ih =>
    intro c hc
    have hcnt : count_indices (.map kvs) = 1 + countEntries kvs := rfl
    have hwe := walkEntries_frame dd kvs ih (c + 1) (fun i hi => by
      have := hc i hi
      rw [hcnt] at this
      omega)
    have hins : List.lookup c dd.inserts = none := by
      refine lookup_eq_none _ _ fun q hq e => ?_
      have h2 := hc q.1 (mem_diffIndices_inserts dd hq)
      have := count_indices_pos (Tree.map kvs)
      omega
    have hfil : List.filter (fun p => !(List.contains ([] : List String) p.1)) kvs = kvs :=
      List.filter_eq_self.2 fun a _ => rfl
    simp only [walkTree, hwe, hins, hfil, Option.bind_eq_bind', Option.some_bind,
      List.isEmpty_nil, Bool.not_true, Option.isSome_none, Bool.or_self,
      Bool.false_eq_true, if_false, Option.some.injEq, Prod.mk.injEq,
      true_and, and_true]
    rw [hcnt]
    omega
  | hseq xs ih =>
    intro c hc
    have hcnt : count_indices (.seq xs) = 1 + countElems xs := rfl
    have hwe := walkElems_frame dd xs ih (c + 1) (fun i hi => by
      have := hc i hi
      rw [hcnt] at this
      omega)
    have hins : List.lookup c dd.inserts = none := by
      refine lookup_eq_none _ _ fun q hq e => ?_
      have h2 := hc q.1 (mem_diffIndices_inserts dd hq)
      have := count_indices_pos (Tree.seq xs)
      omega
    simp only [walkTree, hwe, hins, Option.bind_eq_bind', Option.some_bind,
      Option.getD_none, List.append_nil, Option.some.injEq, Prod.mk.injEq,
      true_and, and_true]
    rw [hcnt]
    omega
  | hstr s => intro c _; simp [walkTree, count_indices]
  | hbytes bs => intro c _; simp [walkTree, count_indices]
  | hint i => intro c _; simp [walkTree, count_indices]
  | hbool b => intro c _; simp [walkTree, count_indices]
  | hnull => intro c _; simp [walkTree, count_indices]
  | htagged n p _ => intro c _; simp [walkTree, count_indices]

/-- C8 (amended): `apply_diff` raises no error for an index the walk does
not reach — there is no `InvalidDiff` in the source.  Unreached indices are
silently ignored: a diff all of whose indices lie at or beyond
`count_indices(old)` leaves the tree unchanged. -/
theorem c8_out_of_range_diff_is_ignored (t : Tree) (dd : Diff)
    (h : ∀ i ∈ diffIndices dd, count_indices t ≤ i) :
    apply_diff t dd = some t := by
  have hw := walkTree_frame dd t 0 (fun i hi => Or.inr (by simpa using h i hi))
  rw [apply_diff, hw]
  rfl

/-- C8, counterexample: the delete keyed at index 99 is never reached by
the walk over `{"a": 1}` (which consumes indices 0–3), yet `apply_diff`
returns a tree rather than failing — the source has no `InvalidDiff`
check at all. -/
theorem c8_no_invalid_diff_error :
    apply_diff (.map [("a", .int 1)]) ⟨[], [99], [], []⟩ =
      some (.map [("a", .int 1)]) := by decide

/-- C8, witness: the update keyed at index 5 is beyond the single index the
walk over the old tree `1` consumes, and the tree comes back unchanged. -/
theorem c8_out_of_range_witness :
    apply_diff (.int 1) ⟨[(5, .int 2)], [], [], []⟩ = some (.int 1) :=
  c8_out_of_range_diff_is_ignored (.int 1) ⟨[(5, .int 2)], [], [], []⟩
    (by intro i hi
        simp [diffIndices] at hi
        subst hi
        decide)

/-! ### C7 (amended): canonical key order after `apply_diff` -/

/-- The strict key order in propositional form. -/
theorem pyKeyLtB_iff {a b : String} :
    pyKeyLtB a b = true ↔ a.length < b.length ∨ (a.length = b.length ∧ a < b) := by
  simp [pyKeyLtB]

instance : IsTrans String pyKeyLtRel := by
  constructor
  intro a b c hab hbc
  rcases pyKeyLtB_iff.1 hab with h1 | ⟨e1, l1⟩ <;>
    rcases pyKeyLtB_iff.1 hbc with h2 | ⟨e2, l2⟩ <;>
      refine pyKeyLtB_iff.2 ?_
  · exact Or.inl (h1.trans h2)
  · exact Or.inl (e2 ▸ h1)
  · exact Or.inl (e1 ▸ h2)
  · exact Or.inr ⟨e1.trans e2, l1.trans l2⟩

/-- `keysSortedB` is the adjacent chain of the strict key order. -/
theorem keysSortedB_iff : ∀ l : List String,
    keysSortedB l = true ↔ List.Chain' pyKeyLtRel l
| [] => by simp [keysSortedB]
| [a] => by simp [keysSortedB]
| a :: b :: r => by
  rw [keysSortedB, Bool.and_eq_true, keysSortedB_iff (b :: r), List.chain'_cons]
  exact Iff.rfl

/-- `keysSortedB` as pairwise strict ordering. -/
theorem keysSortedB_iff_pairwise {l : List String} :
    keysSortedB l = true ↔ l.Pairwise pyKeyLtRel :=
  (keysSortedB_iff l).trans List.chain'_iff_pairwise

/-- The strict key order is irreflexive in the sense needed for `Nodup`. -/
theorem pyKeyLt_ne {a b : String} (h : pyKeyLtRel a b) : a ≠ b := by
  rcases pyKeyLtB_iff.1 h with h1 | ⟨_, l1⟩
  · exact fun e => absurd (e ▸ h1) (lt_irrefl _)
  · exact fun e => absurd (e ▸ l1) (lt_irrefl _)

/-- A canonically ordered key list has no duplicates. -/
theorem keysSortedB_nodup {l : List String} (h : keysSortedB l = true) :
    l.Nodup :=
  (keysSortedB_iff_pairwise.1 h).imp pyKeyLt_ne

/-- Nonstrict key order plus distinctness gives the strict order. -/
theorem pyKeyLe_ne_lt {a b : String} (h1 : pyKeyLe a b) (h2 : a ≠ b) :
    pyKeyLtRel a b := by
  refine pyKeyLtB_iff.2 ?_
  rcases h1 with h | ⟨e, le⟩
  · exact Or.inl h
  · exact Or.inr ⟨e, lt_of_le_of_ne le h2⟩

/-- The Python re-sort emits canonically ordered keys whenever the input
keys are distinct. -/
theorem sortEntries_keysSorted (l : List (String × Tree))
    (hnd : (l.map Prod.fst).Nodup) :
    keysSortedB ((sortEntries l).map Prod.fst) = true := by
  have hs : List.Pairwise entryLe (sortEntries l) :=
    List.sorted_insertionSort entryLe l
  have hperm : List.Perm (sortEntries l) l := List.perm_insertionSort entryLe l
  have hnd2 : ((sortEntries l).map Prod.fst).Nodup :=
    ((hperm.map Prod.fst).nodup_iff).2 hnd
  have hkeysle : ((sortEntries l).map Prod.fst).Pairwise pyKeyLe :=
    List.pairwise_map.2 hs
  refine keysSortedB_iff_pairwise.2 ?_
  exact (hkeysle.and hnd2).imp fun h => pyKeyLe_ne_lt h.1 h.2

/-- `entriesCanon` via membership. -/
theorem entriesCanon_iff {l : List (String × Tree)} :
    entriesCanon l = true ↔ ∀ p ∈ l, isCanon p.2 = true := by
  induction l with
  | nil => simp [entriesCanon]
  | cons p r ih =>
    obtain ⟨k, v⟩ := p
    simp [entriesCanon, Bool.and_eq_true, ih]

/-- `elemsCanon` via membership. -/
theorem elemsCanon_iff {l : List Tree} :
    elemsCanon l = true ↔ ∀ x ∈ l, isCanon x = true := by
  induction l with
  | nil => simp [elemsCanon]
  | cons x r ih => simp [elemsCanon, Bool.and_eq_true, ih]

/-- A successful association lookup is a membership. -/
theorem lookup_mem {α : Type} : ∀ {l : List (Nat × α)} {i : Nat} {v : α},
    List.lookup i l = some v → (i, v) ∈ l := by
  intro l
  induction l with
  | nil => intro i v h; exact Option.noConfusion h
  | cons p r ih =>
    intro i v h
    obtain ⟨k, w⟩ := p
    by_cases hik : i = k
    · subst hik
      simp only [List.lookup, beq_self_eq_true] at h
      obtain rfl := Option.some.inj h
      exact List.mem_cons_self _ _
    · have hik2 : (i == k) = false := beq_eq_false_iff_ne.2 hik
      simp only [List.lookup, hik2] at h
      exact List.mem_cons_of_mem _ (ih h)

/-- Update values carried by a canonical diff are canonical. -/
theorem diffCanon_updates {dd : Diff} (hdd : diffCanonB dd = true)
    {i : Nat} {u : Tree} (h : List.lookup i dd.updates = some u) :
    isCanon u = true := by
  unfold diffCanonB at hdd
  simp only [Bool.and_eq_true] at hdd
  exact List.all_eq_true.1 hdd.1.1 (i, u) (lookup_mem h)

/-- Insert values carried by a canonical diff are canonical. -/
theorem diffCanon_inserts {dd : Diff} (hdd : diffCanonB dd = true)
    {i : Nat} {ins : List Tree} (h : List.lookup i dd.inserts = some ins) :
    ∀ x ∈ ins, isCanon x = true := by
  unfold diffCanonB at hdd
  simp only [Bool.and_eq_true] at hdd
  intro x hx
  exact List.all_eq_true.1 (List.all_eq_true.1 hdd.1.2 (i, ins) (lookup_mem h)) x hx

/-- Prepend values carried by a canonical diff are canonical. -/
theorem diffCanon_prepends {dd : Diff} (hdd : diffCanonB dd = true)
    {i : Nat} {ps : List Tree} (h : List.lookup i dd.prepends = some ps) :
    ∀ x ∈ ps, isCanon x = true := by
  unfold diffCanonB at hdd
  simp only [Bool.and_eq_true] at hdd
  intro x hx
  exact List.all_eq_true.1 (List.all_eq_true.1 hdd.2 (i, ps) (lookup_mem h)) x hx

/-- Keys of the delete-filtered entry list are the filtered keys. -/
theorem map_fst_filter_contains (ds : List String) :
    ∀ l : List (String × Tree),
      (l.filter (fun p => !(ds.contains p.1))).map Prod.fst =
        (l.map Prod.fst).filter (fun x => !(ds.contains x)) := by
  intro l
  induction l with
  | nil => rfl
  | cons p r ih =>
    obtain ⟨a, b⟩ := p
    by_cases hq : (!(ds.contains a)) = true
    · simp only [List.filter_cons, hq, if_true, List.map_cons, ih]
    · simp only [Bool.not_eq_true] at hq
      simp only [List.filter_cons, List.map_cons, hq, Bool.not_true,
        Bool.false_eq_true, if_false, ih]

/-- Membership in the keys after a dict assignment. -/
theorem mem_keys_dictSet {x k : String} {v : Tree} :
    ∀ {kvs : List (String × Tree)},
      x ∈ (dictSet kvs k v).map Prod.fst →
      x ∈ kvs.map Prod.fst ∨ x = k := by
  intro kvs
  induction kvs with
  | nil => intro h; simp [dictSet] at h; exact Or.inr h
  | cons p r ih =>
    obtain ⟨k2, w⟩ := p
    intro h
    by_cases he : k2 = k
    · rw [dictSet, if_pos he] at h
      simp only [List.map_cons, List.mem_cons] at h ⊢
      rcases h with h | h
      · exact Or.inl (Or.inl h)
      · exact Or.inl (Or.inr h)
    · rw [dictSet, if_neg he] at h
      simp only [List.map_cons, List.mem_cons] at h ⊢
      rcases h with h | h
      · exact Or.inl (Or.inl h)
      · rcases ih h with h2 | h2
        · exact Or.inl (Or.inr h2)
        · exact Or.inr h2

/-- A dict assignment keeps the keys duplicate-free. -/
theorem dictSet_keys_nodup {k : String} {v : Tree} :
    ∀ {kvs : List (String × Tree)},
      (kvs.map Prod.fst).Nodup → ((dictSet kvs k v).map Prod.fst).Nodup := by
  intro kvs
  induction kvs with
  | nil => intro _; simp [dictSet]
  | cons p r ih =>
    obtain ⟨k2, w⟩ := p
    intro h
    simp only [List.map_cons, List.nodup_cons] at h
    by_cases he : k2 = k
    · rw [dictSet, if_pos he]
      simp only [List.map_cons, List.nodup_cons]
      exact h
    · rw [dictSet, if_neg he]
      simp only [List.map_cons, List.nodup_cons]
      refine ⟨fun hmem => ?_, ih h.2⟩
      rcases mem_keys_dictSet hmem with h2 | h2
      · exact h.1 h2
      · exact he h2

/-- A dict assignment with a canonical value keeps all values canonical. -/
theorem dictSet_values {k : String} {v : Tree} (hv : isCanon v = true) :
    ∀ {kvs : List (String × Tree)},
      (∀ p ∈ kvs, isCanon p.2 = true) →
      ∀ p ∈ dictSet kvs k v, isCanon p.2 = true := by
  intro kvs
  induction kvs with
  | nil =>
    intro _ p hp
    simp only [dictSet, List.mem_singleton] at hp
    subst hp
    exact hv
  | cons q r ih =>
    obtain ⟨k2, w⟩ := q
    intro hall p hp
    by_cases he : k2 = k
    · rw [dictSet, if_pos he] at hp
      rcases List.mem_cons.1 hp with rfl | hp2
      · exact hv
      · exact hall p (List.mem_cons_of_mem _ hp2)
    · rw [dictSet, if_neg he] at hp
      rcases List.mem_cons.1 hp with rfl | hp2
      · exact hall (k2, w) (by simp)
      · exact ih (fun q hq => hall q (List.mem_cons_of_mem _ hq)) p hp2

/-- A canonical map-insert value destructures into a canonical subtree. -/
theorem asPair_canon {x : Tree} {k : String} {v : Tree}
    (hx : isCanon x = true) (h : asPair x = some (k, v)) :
    isCanon v = true := by
  unfold asPair at h
  split at h
  · rename_i k2 v2
    injection Option.some.inj h with h1 h2
    subst h2
    simp only [isCanon, elemsCanon, Bool.and_eq_true, Bool.and_true] at hx
    exact hx.2
  · exact Option.noConfusion h

/-- `insertPairs` keeps values canonical and keys duplicate-free. -/
theorem insertPairs_spec : ∀ (ins : List Tree) (kvs out : List (String × Tree)),
    insertPairs kvs ins = some out →
    (∀ p ∈ kvs, isCanon p.2 = true) →
    (∀ x ∈ ins, isCanon x = true) →
    (kvs.map Prod.fst).Nodup →
    (∀ p ∈ out, isCanon p.2 = true) ∧ (out.map Prod.fst).Nodup := by
  intro ins
  induction ins with
  | nil =>
    intro kvs out h hk _ hnd
    simp only [insertPairs, Option.some.injEq] at h
    subst h
    exact ⟨hk, hnd⟩
  | cons x rest ih =>
    intro kvs out h hk hins hnd
    rw [insertPairs] at h
    cases hap : asPair x with
    | none => rw [hap] at h; exact Option.noConfusion h
    | some p =>
      obtain ⟨k, v⟩ := p
      rw [hap] at h
      simp only [Option.bind_eq_bind', Option.some_bind] at h
      have hv := asPair_canon (hins x (by simp)) hap
      exact ih (dictSet kvs k v) out h
        (dictSet_values hv hk)
        (fun y hy => hins y (List.mem_cons_of_mem _ hy))
        (dictSet_keys_nodup hnd)

/-- A canonically re-sorted entry list with canonical values and distinct
keys forms a canonical map. -/
theorem sortEntries_canon (l : List (String × Tree))
    (hvals : ∀ p ∈ l, isCanon p.2 = true) (hnd : (l.map Prod.fst).Nodup) :
    isCanon (.map (sortEntries l)) = true := by
  simp only [isCanon, Bool.and_eq_true]
  refine ⟨sortEntries_keysSorted l hnd, entriesCanon_iff.2 fun p hp => ?_⟩
  exact hvals p ((List.perm_insertionSort entryLe l).mem_iff.1 hp)

/-- Entries loop of canonicality preservation: values stay canonical and
the key list (with its order) is reproduced verbatim. -/
theorem walkEntries_canon (dd : Diff) (hdd : diffCanonB dd = true) :
    ∀ kvs : List (String × Tree),
      (∀ p ∈ kvs, ∀ c r, isCanon p.2 = true → walkTree dd p.2 c = some r →
        isCanon r.1 = true) →
      (∀ p ∈ kvs, isCanon p.2 = true) →
      ∀ c es ds c2, walkEntries dd kvs c = some (es, ds, c2) →
        (∀ p ∈ es, isCanon p.2 = true) ∧ es.map Prod.fst = kvs.map Prod.fst := by
  intro kvs
  induction kvs with
  | nil =>
    intro _ _ c es ds c2 h
    simp only [walkEntries, Option.some.injEq, Prod.mk.injEq] at h
    obtain ⟨rfl, rfl, rfl⟩ := h
    exact ⟨by simp, rfl⟩
  | cons p rest ih =>
    intro IH hall c es ds c2 h
    obtain ⟨k, v⟩ := p
    have ihr := ih (fun q hq => IH q (List.mem_cons_of_mem _ hq))
      (fun q hq => hall q (List.mem_cons_of_mem _ hq))
    rw [walkEntries] at h
    split at h
    · cases hrest : walkEntries dd rest (c + 2 + count_indices v) with
      | none => rw [hrest] at h; exact Option.noConfusion h
      | some val =>
        obtain ⟨es2, ds2, c3⟩ := val
        rw [hrest] at h
        simp only [Option.bind_eq_bind', Option.some_bind, Option.some.injEq,
          Prod.mk.injEq] at h
        obtain ⟨rfl, rfl, rfl⟩ := h
        obtain ⟨hvals2, hkeys2⟩ := ihr _ _ _ _ hrest
        refine ⟨fun q hq => ?_, by simp [hkeys2]⟩
        rcases List.mem_cons.1 hq with rfl | hq2
        · exact hall (k, v) (by simp)
        · exact hvals2 q hq2
    · cases hw : walkTree dd v (c + 2) with
      | none => rw [hw] at h; exact Option.noConfusion h
      | some pr =>
        obtain ⟨pv, c1⟩ := pr
        rw [hw] at h
        simp only [Option.bind_eq_bind', Option.some_bind] at h
        cases hrest : walkEntries dd rest c1 with
        | none => rw [hrest] at h; exact Option.noConfusion h
        | some val =>
          obtain ⟨es2, ds2, c3⟩ := val
          rw [hrest] at h
          simp only [Option.bind_eq_bind', Option.some_bind, Option.some.injEq,
            Prod.mk.injEq] at h
          obtain ⟨rfl, rfl, rfl⟩ := h
          obtain ⟨hvals2, hkeys2⟩ := ihr _ _ _ _ hrest
          have hslot : isCanon ((List.lookup (c + 2) dd.updates).getD pv) = true := by
            cases hlu : List.lookup (c + 2) dd.updates with
            | none =>
              simpa using IH (k, v) (by simp) (c + 2) (pv, c1)
                (hall (k, v) (by simp)) hw
            | some u => simpa using diffCanon_updates hdd hlu
          refine ⟨fun q hq => ?_, by simp [hkeys2]⟩
          rcases List.mem_cons.1 hq with rfl | hq2
          · exact hslot
          · exact hvals2 q hq2

/-- Elements loop of canonicality preservation. -/
theorem walkElems_canon (dd : Diff) (hdd : diffCanonB dd = true) :
    ∀ xs : List Tree,
      (∀ x ∈ xs, ∀ c r, isCanon x = true → walkTree dd x c = some r →
        isCanon r.1 = true) →
      (∀ x ∈ xs, isCanon x = true) →
      ∀ c es c2, walkElems dd xs c = some (es, c2) →
        ∀ x ∈ es, isCanon x = true := by
  intro xs
  induction xs with
  | nil =>
    intro _ _ c es c2 h
    simp only [walkElems, Option.some.injEq, Prod.mk.injEq] at h
    obtain ⟨rfl, rfl⟩ := h
    simp
  | cons x rest ih =>
    intro IH hall c es c2 h
    have ihr := ih (fun q hq => IH q (List.mem_cons_of_mem _ hq))
      (fun q hq => hall q (List.mem_cons_of_mem _ hq))
    rw [walkElems] at h
    split at h
    · cases hrest : walkElems dd rest (c + count_indices x) with
      | none => rw [hrest] at h; exact Option.noConfusion h
      | some val =>
        obtain ⟨es2, c3⟩ := val
        rw [hrest] at h
        simp only [Option.bind_eq_bind', Option.some_bind, Option.some.injEq,
          Prod.mk.injEq] at h
        obtain ⟨rfl, rfl⟩ := h
        exact ihr _ _ _ hrest
    · cases hw : walkTree dd x c with
      | none => rw [hw] at h; exact Option.noConfusion h
      | some pr =>
        obtain ⟨px, c1⟩ := pr
        rw [hw] at h
        simp only [Option.bind_eq_bind', Option.some_bind] at h
        cases hrest : walkElems dd rest c1 with
        | none => rw [hrest] at h; exact Option.noConfusion h
        | some val =>
          obtain ⟨es2, c3⟩ := val
          rw [hrest] at h
          simp only [Option.bind_eq_bind', Option.some_bind, Option.some.injEq,
            Prod.mk.injEq] at h
          obtain ⟨rfl, rfl⟩ := h
          have hslot : isCanon ((List.lookup c dd.updates).getD px) = true := by
            cases hlu : List.lookup c dd.updates with
            | none =>
              simpa using IH x (by simp) c (px, c1) (hall x (by simp)) hw
            | some u => simpa using diffCanon_updates hdd hlu
          intro y hy
          rcases List.mem_append.1 hy with hy | hy
          · cases hlp : List.lookup c dd.prepends with
            | none => rw [hlp] at hy; simp at hy
            | some ps =>
              rw [hlp] at hy
              exact diffCanon_prepends hdd hlp y (by simpa using hy)
          · rcases List.mem_cons.1 hy with rfl | hy2
            · exact hslot
            · exact ihr _ _ _ hrest y hy2

/-- The walk preserves CAN-1 whenever the carried diff values are
canonical: every map it returns either keeps a canonical key list verbatim
or is re-sorted, and every spliced-in subtree is canonical by
hypothesis. -/
theorem walkTree_canon (dd : Diff) (hdd : diffCanonB dd = true) :
    ∀ t : Tree, ∀ c r, isCanon t = true → walkTree dd t c = some r →
      isCanon r.1 = true := by
  intro t
  induction t using Tree.nestedInduction with
  | hmap kvs ih =>
    intro c r hcanon hwalk
    simp only [isCanon, Bool.and_eq_true] at hcanon
    obtain ⟨hks, hec⟩ := hcanon
    rw [walkTree] at hwalk
    cases hwe : walkEntries dd kvs (c + 1) with
    | none => rw [hwe] at hwalk; exact Option.noConfusion hwalk
    | some val =>
      obtain ⟨es, ds, c2⟩ := val
      rw [hwe] at hwalk
      simp only [Option.bind_eq_bind', Option.some_bind] at hwalk
      obtain ⟨hesvals, heskeys⟩ :=
        walkEntries_canon dd hdd kvs ih (entriesCanon_iff.1 hec) (c + 1) es ds c2 hwe
      have hesnodup : (es.map Prod.fst).Nodup := by
        rw [heskeys]
        exact keysSortedB_nodup hks
      have haftervals : ∀ p ∈ es.filter (fun p => !(ds.contains p.1)),
          isCanon p.2 = true :=
        fun p hp => hesvals p (List.mem_filter.1 hp).1
      have hafternodup :
          ((es.filter (fun p => !(ds.contains p.1))).map Prod.fst).Nodup := by
        rw [map_fst_filter_contains]
        exact hesnodup.filter _
      split at hwalk
      · rename_i hins
        rw [hins] at hwalk
        simp only [Option.isSome_none, Bool.or_false] at hwalk
        cases hde : ds.isEmpty with
        | true =>
          rw [hde] at hwalk
          simp only [Bool.not_true, Bool.false_eq_true, if_false,
            Option.some.injEq] at hwalk
          subst hwalk
          have hds : ds = [] := List.isEmpty_iff.1 hde
          subst hds
          have hfil : es.filter (fun p => !(List.contains ([] : List String) p.1)) = es :=
            List.filter_eq_self.2 fun a _ => rfl
          simp only [hfil]
          simp only [isCanon, Bool.and_eq_true]
          exact ⟨heskeys ▸ hks, entriesCanon_iff.2 hesvals⟩
        | false =>
          rw [hde] at hwalk
          simp only [Bool.not_false, eq_self_iff_true, if_true,
            Option.some.injEq] at hwalk
          subst hwalk
          exact sortEntries_canon _ haftervals hafternodup
      · rename_i ins hins
        rw [hins] at hwalk
        simp only [Option.isSome_some, Bool.or_true, eq_self_iff_true,
          if_true] at hwalk
        cases hip : insertPairs (es.filter (fun p => !(ds.contains p.1))) ins with
        | none => rw [hip] at hwalk; exact Option.noConfusion hwalk
        | some out =>
          rw [hip] at hwalk
          simp only [Option.bind_eq_bind', Option.some_bind,
            Option.some.injEq] at hwalk
          subst hwalk
          obtain ⟨houtvals, houtnodup⟩ := insertPairs_spec ins _ out hip
            haftervals (diffCanon_inserts hdd hins) hafternodup
          exact sortEntries_canon _ houtvals houtnodup
  | hseq xs ih =>
    intro c r hcanon hwalk
    simp only [isCanon] at hcanon
    rw [walkTree] at hwalk
    cases hwe : walkElems dd xs (c + 1) with
    | none => rw [hwe] at hwalk; exact Option.noConfusion hwalk
    | some val =>
      obtain ⟨es, c2⟩ := val
      rw [hwe] at hwalk
      simp only [Option.bind_eq_bind', Option.some_bind, Option.some.injEq] at hwalk
      subst hwalk
      have hes := walkElems_canon dd hdd xs ih (elemsCanon_iff.1 hcanon) (c + 1) es c2 hwe
      simp only [isCanon]
      refine elemsCanon_iff.2 fun x hx => ?_
      rcases List.mem_append.1 hx with hx | hx
      · exact hes x hx
      · cases hins : List.lookup c dd.inserts with
        | none => rw [hins] at hx; simp at hx
        | some ins =>
          rw [hins] at hx
          exact diffCanon_inserts hdd hins x (by simpa using hx)
  | hstr s =>
    intro c r hcanon hwalk
    simp only [walkTree, Option.some.injEq] at hwalk
    subst hwalk
    exact hcanon
  | hbytes bs =>
    intro c r hcanon hwalk
    simp only [walkTree, Option.some.injEq] at hwalk
    subst hwalk
    exact hcanon
  | hint i =>
    intro c r hcanon hwalk
    simp only [walkTree, Option.some.injEq] at hwalk
    subst hwalk
    exact hcanon
  | hbool b =>
    intro c r hcanon hwalk
    simp only [walkTree, Option.some.injEq] at hwalk
    subst hwalk
    exact hcanon
  | hnull =>
    intro c r hcanon hwalk
    simp only [walkTree, Option.some.injEq] at hwalk
    subst hwalk
    exact hcanon
  | htagged n p _ =>
    intro c r hcanon hwalk
    simp only [walkTree, Option.some.injEq] at hwalk
    subst hwalk
    exact hcanon

/-- C7 (amended): for every input tree satisfying CAN-1 and every diff
whose carried subtrees (update values, insert values, prepend values)
satisfy CAN-1, the tree returned by `apply_diff` has every map's keys
ordered by key length first, then lexicographically.  (The unamended claim
over arbitrary diffs is false: the patcher splices carried subtrees in
verbatim and re-sorts only maps it structurally mutated — see the
counterexample below.) -/
theorem c7_canonical_after_apply (old : Tree) (dd : Diff) (res : Tree)
    (hold : isCanon old = true) (hdd : diffCanonB dd = true)
    (happ : apply_diff old dd = some res) : isCanon res = true := by
  rw [apply_diff] at happ
  cases hw : walkTree dd old 0 with
  | none => rw [hw] at happ; exact Option.noConfusion happ
  | some r =>
    obtain ⟨p, c⟩ := r
    rw [hw] at happ
    simp only [Option.bind_eq_bind', Option.some_bind, Option.some.injEq] at happ
    subst happ
    exact walkTree_canon dd hdd old 0 (p, c) hold hw

/-- C7, witness: the canonical input `{"a": 1}` with a diff carrying the
canonical update value `"z"` produces a canonical result. -/
theorem c7_canonical_witness :
    isCanon (.map [("a", .int 1)]) = true ∧
    diffCanonB ⟨[(3, .str "z")], [], [], []⟩ = true ∧
    apply_diff (.map [("a", .int 1)]) ⟨[(3, .str "z")], [], [], []⟩ =
      some (.map [("a", .str "z")]) ∧
    isCanon (.map [("a", .str "z")]) = true :=
  ⟨by decide, by decide, by decide,
   c7_canonical_after_apply (.map [("a", .int 1)]) ⟨[(3, .str "z")], [], [], []⟩
     (.map [("a", .str "z")]) (by decide) (by decide) (by decide)⟩

/-- C7, counterexample: for the CAN-1 input `{"a": 1}` and the diff that
updates index 3 (the value of `"a"`) to the non-canonical map
`{"bb": 1, "a": 2}`, `apply_diff` returns a tree containing a map whose
keys violate the (length, lexicographic) order — update values are spliced
in verbatim, never re-canonicalized. -/
theorem c7_update_value_not_canonicalized :
    isCanon (.map [("a", .int 1)]) = true ∧
    apply_diff (.map [("a", .int 1)])
        ⟨[(3, .map [("bb", .int 1), ("a", .int 2)])], [], [], []⟩ =
      some (.map [("a", .map [("bb", .int 1), ("a", .int 2)])]) ∧
    isCanon (.map [("a", .map [("bb", .int 1), ("a", .int 2)])]) = false := by
  refine ⟨by decide, by decide, by decide⟩

end DidPlc
